import Mathlib

/-
  A shallow embedding of pyconfig.py: the Config container (dual map-style and
  attribute-style access over one dict, with normalized keys), its two merge
  modes (update and set_defaults), the check engine, the error-message
  resolver, and the recursive template validator.
-/

set_option maxHeartbeats 1000000

namespace PyConf

/-- Python exception kinds that the embedded code can raise. -/
inductive PyErr : Type where
  | keyError : PyErr
  | attributeError : PyErr
  | typeError : PyErr
deriving DecidableEq, Repr

/-- A dict key as the code accepts it: text or an integer. -/
inductive Key : Type where
  | str : String → Key
  | int : Int → Key
deriving DecidableEq, Repr

/-- Python values stored in or fed to a Config: scalars, plain dicts, and
Config instances.  A Config instance carries its dict entries and its
ordinary instance attributes, both keyed by strings. -/
inductive Val : Type where
  | vInt : Int → Val
  | vStr : String → Val
  | vBool : Bool → Val
  | vNone : Val
  | vDict : List (Key × Val) → Val
  | vConfig : List (String × Val) → List (String × Val) → Val
deriving Repr

/-- A Config object: the backing dict entries and the instance attributes. -/
structure Cfg where
  entries : List (String × Val)
  attrs : List (String × Val)
deriving Repr

/-- First-match association lookup: the model of indexing a Python dict. -/
def lookupE : List (String × Val) → String → Option Val
  | [], _ => Option.none
  | (k, v) :: rest, n => if k = n then some v else lookupE rest n

/-- Model of dict assignment: replace the first entry with the key, else append. -/
def insertEntry : List (String × Val) → String → Val → List (String × Val)
  | [], k, v => [(k, v)]
  | (k0, v0) :: rest, k, v =>
      if k0 = k then (k0, v) :: rest else (k0, v0) :: insertEntry rest k v

/-- Raw lookup with a Key: dict keys put there by the code are always strings,
so an integer key never matches raw. -/
def rawGetK (es : List (String × Val)) : Key → Option Val
  | .str s => lookupE es s
  | .int _ => Option.none

/-- The ASCII characters of string.punctuation and string.whitespace, which
the translation table of the source maps to an underscore. -/
def punctWs : List Char :=
  ("!\"#$%&\x27()*+,-./:;<=>?@[\\]^_\x60\x7b|\x7d~ \t\n\x0b\x0c\r").toList

/-- One character through the translation table. -/
def translateChar (c : Char) : Char := if punctWs.contains c then '_' else c

/-- Character-level body of identifier: empty becomes an underscore, a leading
digit is preceded by an underscore, then every character is translated.  The
digit test is the ASCII one; it agrees with Python on every key built from
ASCII text or from an integer. -/
def identChars : List Char → List Char
  | [] => ['_']
  | c :: rest => ((if c.isDigit then '_' :: c :: rest else c :: rest).map translateChar)

/-- identifier for a text key. -/
def identStr (s : String) : String := String.mk (identChars s.toList)

/-- identifier(name): return a valid identifier for a str or int key.  An
integer is first rendered as text, as str does in the source. -/
def identifier : Key → String
  | .str s => identStr s
  | .int n => identStr (toString n)

/-- Python isinstance(v, dict): true for plain dicts and for Config instances. -/
def isMapping : Val → Bool
  | .vDict _ => true
  | .vConfig _ _ => true
  | _ => false

mutual
/-- Model of Config(v) for a value v: a mapping is rebuilt into a Config with
fresh entries and no instance attributes; any other value is untouched. -/
def conv : Val → Val
  | .vDict items => .vConfig (convKV [] items) []
  | .vConfig es _ => .vConfig (convSV [] es) []
  | v => v

/-- Model of Config.update folded over int-or-text keyed items: each key is
normalized and each nested mapping becomes a Config. -/
def convKV : List (String × Val) → List (Key × Val) → List (String × Val)
  | es, [] => es
  | es, (k, v) :: rest =>
      convKV (insertEntry es (identifier k) (if isMapping v then conv v else v)) rest

/-- Model of Config.update folded over the items of an existing Config,
whose keys are already strings. -/
def convSV : List (String × Val) → List (String × Val) → List (String × Val)
  | es, [] => es
  | es, (k, v) :: rest =>
      convSV (insertEntry es (identStr k) (if isMapping v then conv v else v)) rest
end

/-- Config.update with an arbitrary argument: iterating items of a non-mapping
raises AttributeError. -/
def updAny (es : List (String × Val)) (v : Val) : Except PyErr (List (String × Val)) :=
  match v with
  | .vDict items => .ok (convKV es items)
  | .vConfig ces _ => .ok (convSV es ces)
  | _ => .error .attributeError

mutual
/-- Model of Config.set_defaults over int-or-text keyed items: a key absent at
this level is filled (a mapping value through Config(v)); a present nested
Config is descended into; a present non-Config value makes the recursive
set_defaults call fail with AttributeError, as calling set_defaults on a
scalar does in Python. -/
def sdKV : List (String × Val) → List (Key × Val) → Except PyErr (List (String × Val))
  | es, [] => .ok es
  | es, (k, v) :: rest =>
      let k2 := identifier k
      if isMapping v then
        match lookupE es k2 with
        | Option.none => sdKV (convKV es [(Key.str k2, conv v)]) rest
        | some w =>
            match w with
            | .vConfig we wa =>
                match sdVal we v with
                | .ok we2 => sdKV (insertEntry es k2 (.vConfig we2 wa)) rest
                | .error e => .error e
            | _ => .error .attributeError
      else
        match lookupE es k2 with
        | Option.none => sdKV (convKV es [(Key.str k2, v)]) rest
        | some _ => sdKV es rest

/-- set_defaults dispatched on the defaults argument: a plain dict iterates
with raw keys, a Config iterates its string-keyed entries, anything else has
no items and raises AttributeError. -/
def sdVal (es : List (String × Val)) : Val → Except PyErr (List (String × Val))
  | .vDict items => sdKV es items
  | .vConfig ces _ => sdSV es ces
  | _ => .error .attributeError

/-- Model of Config.set_defaults over string-keyed items of a Config. -/
def sdSV : List (String × Val) → List (String × Val) → Except PyErr (List (String × Val))
  | es, [] => .ok es
  | es, (k, v) :: rest =>
      let k2 := identStr k
      if isMapping v then
        match lookupE es k2 with
        | Option.none => sdSV (convKV es [(Key.str k2, conv v)]) rest
        | some w =>
            match w with
            | .vConfig we wa =>
                match sdVal we v with
                | .ok we2 => sdSV (insertEntry es k2 (.vConfig we2 wa)) rest
                | .error e => .error e
            | _ => .error .attributeError
      else
        match lookupE es k2 with
        | Option.none => sdSV (convKV es [(Key.str k2, v)]) rest
        | some _ => sdSV es rest
end

/-- Model of Config(values, defaults): update with the values, then
set_defaults with the defaults; a fresh object has no instance attributes. -/
def configNew (values defaults : Val) : Except PyErr Cfg := do
  let es ← updAny [] values
  let es2 ← sdVal es defaults
  return ⟨es2, []⟩

/-- Model of the overridden getitem: try the raw key, then retry with the
normalized key, and raise KeyError when both miss. -/
def getItem (es : List (String × Val)) (k : Key) : Except PyErr Val :=
  match rawGetK es k with
  | some v => .ok v
  | Option.none =>
      match lookupE es (identifier k) with
      | some v => .ok v
      | Option.none => .error .keyError

/-- Model of attribute access on a Config: Python finds an instance attribute
first; only when that fails is the getattr fallback consulted, which reads
the dict and turns KeyError into AttributeError. -/
def getAttr (c : Cfg) (a : String) : Except PyErr Val :=
  match lookupE c.attrs a with
  | some v => .ok v
  | Option.none =>
      match getItem c.entries (.str a) with
      | .ok v => .ok v
      | .error _ => .error .attributeError

/-- Model of the overridden setattr: a name present in the dict is overwritten
there; any other name becomes an ordinary instance attribute. -/
def setAttr (c : Cfg) (a : String) (v : Val) : Cfg :=
  if (lookupE c.entries a).isSome then ⟨insertEntry c.entries a v, c.attrs⟩
  else ⟨c.entries, insertEntry c.attrs a v⟩

/-- Model of cfg.update(values) on an existing Config. -/
def updateCfg (c : Cfg) (v : Val) : Except PyErr Cfg :=
  (updAny c.entries v).map (fun es => ⟨es, c.attrs⟩)

/-- Model of cfg.set_defaults(defaults) on an existing Config. -/
def setDefaultsCfg (c : Cfg) (v : Val) : Except PyErr Cfg :=
  (sdVal c.entries v).map (fun es => ⟨es, c.attrs⟩)

/-- Python addition restricted to the value shapes that can reach the message
assembly of the resolver: concatenation of two strings, addition of two ints,
everything else a TypeError. -/
def pyAdd : Val → Val → Except PyErr Val
  | .vStr a, .vStr b => .ok (.vStr (a ++ b))
  | .vInt a, .vInt b => .ok (.vInt (a + b))
  | _, _ => .error .typeError

/-- The dict method get with one argument: total on mappings, returning an
optional value; on any other receiver the method itself is absent. -/
def dictGet (v : Val) (k : String) : Except PyErr (Option Val) :=
  match v with
  | .vConfig es _ => .ok (lookupE es k)
  | .vDict items => .ok (rawGetK (items.filterMap fun p =>
      match p.1 with | .str s => some (s, p.2) | .int _ => Option.none) (.str k))
  | _ => .error .attributeError

/-- Attribute access on an arbitrary value: only Config instances have the
overridden lookup; other values have no such attribute. -/
def getAttrVal (v : Val) (a : String) : Except PyErr Val :=
  match v with
  | .vConfig es as => getAttr ⟨es, as⟩ a
  | _ => .error .attributeError

/-- The class-level general_errors dict of the source. -/
def generalErrors : Val :=
  .vDict [(.str "prefix", .vStr "{path}.{name} "), (.str "invalid", .vStr "is invalid"),
          (.str "missing", .vStr "is missing"), (.str "suffix", .vStr ".")]

/-- Model of Config._prepare_error_msgs: a bare string becomes a blanket
invalid message, then local messages are layered over the given defaults,
which are themselves layered over the class general errors. -/
def prepEM (em defaults : Val) : Except PyErr Cfg := do
  let em2 := match em with
    | .vStr s => Val.vConfig (convKV [] [(.str "_", .vDict [(.str "invalid", .vStr s)])]) []
    | e => e
  let inner ← configNew defaults (.vDict [(.str "_", generalErrors)])
  configNew em2 (.vConfig inner.entries inner.attrs)

/-- Model of Config._get_error_msg: resolve the message for a field and a
situation from a prepared error-message Config, mirroring the evaluation
order of the source expression, including the eager evaluation of the
fallback arguments of dict.get. -/
def getErrMsg (attrName : Key) (em : Cfg) (missing : Bool) : Except PyErr Val := do
  let situation := if missing then "missing" else "invalid"
  let u ← getAttr em "_"
  let dflt ← dictGet u situation
  let e0 := match rawGetK em.entries attrName with
    | some v => v
    | Option.none => dflt.getD .vNone
  match e0 with
  | .vConfig oes _ => do
      let up ← getAttrVal u "prefix"
      let p := (lookupE oes "prefix").getD up
      let w := (lookupE oes situation).getD (dflt.getD .vNone)
      let s1 ← pyAdd p w
      let us ← getAttrVal u "suffix"
      let sfx := (lookupE oes "suffix").getD us
      pyAdd s1 sfx
  | e => do
      let up ← getAttrVal u "prefix"
      let s1 ← pyAdd up e
      let us ← getAttrVal u "suffix"
      pyAdd s1 us

/-- The Python types that occur as type checks. -/
inductive PyType : Type where
  | tyInt : PyType
  | tyStr : PyType
  | tyBool : PyType
  | tyDict : PyType
  | tyCfg : PyType
deriving DecidableEq, Repr

/-- isinstance on the embedded values: bool is a subclass of int and Config a
subclass of dict, as in Python. -/
def isInst : Val → PyType → Bool
  | .vInt _, .tyInt => true
  | .vBool _, .tyBool => true
  | .vBool _, .tyInt => true
  | .vStr _, .tyStr => true
  | .vDict _, .tyDict => true
  | .vConfig _ _, .tyDict => true
  | .vConfig _ _, .tyCfg => true
  | _, _ => false

/-- Python equality for the scalar values that reach the value-comparison
check.  A mapping never reaches this comparison as the check side, because a
mapping template leaf is treated as a nested template before checks run, and
a mapping compared to a scalar is unequal in Python. -/
def pyEq : Val → Val → Bool
  | .vInt a, .vInt b => a == b
  | .vInt a, .vBool b => a == (if b then 1 else 0)
  | .vBool a, .vInt b => (if a then (1 : Int) else 0) == b
  | .vBool a, .vBool b => a == b
  | .vStr a, .vStr b => a == b
  | .vNone, .vNone => true
  | _, _ => false

/-- A callable check: the value, the positional arguments and the keyword
arguments, with the boolean truthiness of the Python result. -/
abbrev PyFn3 := Val → List Val → List (String × Val) → Except PyErr Bool

/-- The second slot of a tuple check: a positional-argument list or a dict. -/
inductive TupArg : Type where
  | pos : List Val → TupArg
  | kw : List (String × Val) → TupArg

/-- A check node, the tagged form of the five shapes the source dispatches on
plus the value-comparison fallback.  The tuple shape carries its up to three
slots; a tuple whose first slot is not callable raises when called and is not
representable here, which no claim exercises. -/
inductive Check : Type where
  | ckList : List Check → Check
  | ckSet : List Check → Check
  | ckType : PyType → Check
  | ckFun : (Val → Except PyErr Bool) → Check
  | ckTuple : Option PyFn3 → Option TupArg → Option (List (String × Val)) → Check
  | ckVal : Val → Check

/-- Model of the tuple branch of Config._check: missing slots default to a
false-returning callable, an empty argument list and an empty kwargs dict,
and a dict sitting in the args slot with no kwargs is reinterpreted as the
kwargs; unpacking a dict as positional arguments passes its keys. -/
def evalTuple (attr : Val) (f : Option PyFn3) (a : Option TupArg)
    (kw : Option (List (String × Val))) : Except PyErr Bool :=
  let args := a.getD (TupArg.pos [])
  let kwargs := kw.getD []
  let p : TupArg × List (String × Val) :=
    match kwargs, args with
    | [], TupArg.kw d => (TupArg.pos [], d)
    | kws, ags => (ags, kws)
  match f with
  | some fn =>
      match p.1 with
      | .pos l => fn attr l p.2
      | .kw d => fn attr (d.map fun q => Val.vStr q.1) p.2
  | Option.none =>
      match p.1, p.2 with
      | .pos [], [] => .ok false
      | _, _ => .error .typeError

mutual
/-- Model of Config._check: dispatch in source order on list, set, type,
callable, tuple, and finally value comparison. -/
def checkFn (attr : Val) : Check → Except PyErr Bool
  | .ckList cs => anyCheck attr cs
  | .ckSet cs => allCheck attr cs
  | .ckType t => .ok (isInst attr t)
  | .ckFun f => f attr
  | .ckTuple f a k => evalTuple attr f a k
  | .ckVal v => .ok (pyEq attr v)

/-- The list branch: return at the first passing sub-check. -/
def anyCheck (attr : Val) : List Check → Except PyErr Bool
  | [] => .ok false
  | c :: rest => do
      let b ← checkFn attr c
      if b then pure true else anyCheck attr rest

/-- The set branch: return at the first failing sub-check. -/
def allCheck (attr : Val) : List Check → Except PyErr Bool
  | [] => .ok true
  | c :: rest => do
      let b ← checkFn attr c
      if b then allCheck attr rest else pure false
end

/-- A template node: a nested template or a check leaf.  The source decides
with isinstance(check, dict), so a mapping leaf is exactly a nested template. -/
inductive TNode : Type where
  | sub : List (Key × TNode) → TNode
  | chk : Check → TNode

/-- A template: the ordered items of the template dict. -/
abbrev Template := List (Key × TNode)

/-- str of a key, used when extending the path. -/
def keyStr : Key → String
  | .str s => s
  | .int n => toString n

/-- The path extension of the source: add a dot only below a nonempty path. -/
def newPath (path : String) (k : Key) : String :=
  (if path = "" then "" else path ++ ".") ++ keyStr k

/-- The formatting kwargs dict passed to the reporting hook. -/
structure FormatInfo where
  missing : Bool
  name : Option Key
  path : String
  value : Option Val
deriving Repr

/-- One reporting-hook invocation: the resolved message and the kwargs. -/
abbrev Report := Val × FormatInfo

/-- The formatting dict as initialized at the top of _follows_template. -/
def initFI (path : String) : FormatInfo :=
  ⟨true, Option.none, path, Option.none⟩

mutual
/-- Model of Config._follows_template: one pass over the template fields,
threading the mutable formatting dict and the accumulated boolean exactly as
the source does, collecting the reporting-hook invocations in order.  A field
that resolves is handled by followsNode, which returns the updated result
flag, the updated formatting dict, and the reports of that field. -/
def followsAux (c : Cfg) : Template → Cfg → String → FormatInfo → Bool →
    Except PyErr (Bool × List Report)
  | [], _, _, _, res => .ok (res, [])
  | (attrName, node) :: rest, em, path, fi, res =>
    let fi1 := { fi with name := some attrName }
    match getAttr c (identifier attrName) with
    | .error _ => do
        let msg ← getErrMsg attrName em true
        let br ← followsAux c rest em path fi1 false
        .ok (br.1, (msg, fi1) :: br.2)
    | .ok attr => do
        let step ← followsNode attrName attr node em path fi1 res
        let br ← followsAux c rest em path step.2.1 step.1
        .ok (br.1, step.2.2 ++ br.2)

/-- One resolved template field: a nested template recurses into the nested
Config with freshly prepared error messages, an extended path, and a fresh
formatting dict, or reports a missing field when the value is not a Config;
a check leaf evaluates the check and reports an invalid field on failure,
mutating the shared formatting dict. -/
def followsNode (attrName : Key) (attr : Val) (node : TNode) (em : Cfg)
    (path : String) (fi1 : FormatInfo) (res : Bool) :
    Except PyErr (Bool × FormatInfo × List Report) :=
  match node with
  | .sub st =>
    match attr with
    | .vConfig aes aas => do
        let ov := (rawGetK em.entries attrName).getD (.vDict [])
        let u ← getAttr em "_"
        let em2 ← prepEM ov (.vDict [(.str "_", u)])
        let np := newPath path attrName
        let sub ← followsAux ⟨aes, aas⟩ st em2 np (initFI np) true
        .ok (res && sub.1, fi1, sub.2)
    | _ => do
        let msg ← getErrMsg attrName em true
        .ok (false, fi1, [(msg, fi1)])
  | .chk ch => do
      let okb ← checkFn attr ch
      if okb then .ok (res, fi1, [])
      else do
        let fi2 := { fi1 with missing := false, value := some attr }
        let msg ← getErrMsg attrName em false
        .ok (false, fi2, [(msg, fi2)])
end

/-- One _follows_template call: fresh formatting dict, result starts true. -/
def followsTpl (c : Cfg) (t : Template) (em : Cfg) (path : String) :
    Except PyErr (Bool × List Report) :=
  followsAux c t em path (initFI path) true

/-- Model of the public follows_template: prepare the error messages with the
class defaults, then walk the template from an empty path. -/
def followsTemplate (c : Cfg) (t : Template) (em : Val) :
    Except PyErr (Bool × List Report) := do
  let pem ← prepEM em (.vDict [])
  followsTpl c t pem ""

/-- A check evaluation counts as passing when it returns true without raising. -/
def checkPasses (v : Val) (ch : Check) : Bool :=
  match checkFn v ch with
  | .ok true => true
  | _ => false

mutual
/-- Modelled from the spec: the validation verdict stated declaratively, true
iff every field at every depth resolves, nested templates resolve to nested
Configs, and every check leaf passes. -/
def specOk (c : Cfg) : Template → Bool
  | [] => true
  | (k, node) :: rest =>
      (match getAttr c (identifier k) with
       | .error _ => false
       | .ok v => specOkNode v node) && specOk c rest

/-- Modelled from the spec: the verdict for one resolved field. -/
def specOkNode (v : Val) : TNode → Bool
  | .sub st =>
      match v with
      | .vConfig es as => specOk ⟨es, as⟩ st
      | _ => false
  | .chk ch => checkPasses v ch
end

mutual
/-- Modelled from the spec: the number of failing fields of a template walk,
one per missing field, per nested template without a nested Config, and per
failing check leaf. -/
def countFail (c : Cfg) : Template → Nat
  | [] => 0
  | (k, node) :: rest =>
      (match getAttr c (identifier k) with
       | .error _ => 1
       | .ok v => countFailNode v node) + countFail c rest

/-- Modelled from the spec: the failure count of one resolved field. -/
def countFailNode (v : Val) : TNode → Nat
  | .sub st =>
      match v with
      | .vConfig es as => countFail ⟨es, as⟩ st
      | _ => 1
  | .chk ch => if checkPasses v ch then 0 else 1
end

/-- Whether a value is a Config instance. -/
def isConfigV : Val → Bool
  | .vConfig _ _ => true
  | _ => false

/-- Whether a value is a string. -/
def isStrV : Val → Bool
  | .vStr _ => true
  | _ => false

/-- Projection to an integer, for discriminating concrete results. -/
def projInt : Val → Int
  | .vInt n => n
  | _ => 0

/-- Projection of a lookup result to an integer. -/
def projIntR : Except PyErr Val → Int
  | .ok v => projInt v
  | .error _ => 0

/-- Projection of a resolver result to a string, for discriminating results. -/
def projStrR : Except PyErr Val → String
  | .ok (.vStr s) => s
  | _ => ""

/-- The frame relation of set_defaults: every field of the first store is
still present in the second with the same value when it is not a Config, and
with a recursively preserved Config otherwise. -/
def SP : List (String × Val) → List (String × Val) → Prop
  | es, es2 =>
    (∀ n w, lookupE es n = some w → isConfigV w = false → lookupE es2 n = some w) ∧
    (∀ (n : String) (ne na : List (String × Val))
        (_ : lookupE es n = some (.vConfig ne na)),
       ∃ ne2, lookupE es2 n = some (.vConfig ne2 na) ∧ SP ne ne2)
termination_by es _ => sizeOf es
decreasing_by
  rename_i h
  have key : ∀ (l : List (String × Val)) (n : String) (w : Val),
      lookupE l n = some w → sizeOf w < sizeOf l := by
    intro l
    induction l with
    | nil => intro n w h2; simp [lookupE] at h2
    | cons p rest ih =>
        intro n w h2
        obtain ⟨k, v⟩ := p
        simp only [lookupE] at h2
        split at h2
        · cases h2; simp; omega
        · have := ih n w h2; simp; omega
  have := key es n (.vConfig ne na) h
  simp at this
  omega

mutual
/-- Saturation of a store with respect to int-or-text keyed defaults: every
default key is present, mappings as Configs recursively saturated, on which
set_defaults is a no-op. -/
def SatKV (es : List (String × Val)) : List (Key × Val) → Prop
  | [] => True
  | (k, v) :: rest =>
      (if isMapping v then
        ∃ we wa, lookupE es (identifier k) = some (.vConfig we wa) ∧ SatV we v
       else (lookupE es (identifier k)).isSome = true) ∧ SatKV es rest

/-- Saturation with respect to one mapping value. -/
def SatV (es : List (String × Val)) : Val → Prop
  | .vDict items => SatKV es items
  | .vConfig ces _ => SatSV es ces
  | _ => False

/-- Saturation of a store with respect to string keyed defaults. -/
def SatSV (es : List (String × Val)) : List (String × Val) → Prop
  | [] => True
  | (k, v) :: rest =>
      (if isMapping v then
        ∃ we wa, lookupE es (identStr k) = some (.vConfig we wa) ∧ SatV we v
       else (lookupE es (identStr k)).isSome = true) ∧ SatSV es rest
end

/-- Pairwise distinctness of the normalized forms of int-or-text keys. -/
def distinctKV : List (Key × Val) → Bool
  | [] => true
  | (k, _) :: rest =>
      (!(rest.any fun p => identifier p.1 == identifier k)) && distinctKV rest

/-- Pairwise distinctness of the normalized forms of string keys. -/
def distinctSV : List (String × Val) → Bool
  | [] => true
  | (k, _) :: rest =>
      (!(rest.any fun p => identStr p.1 == identStr k)) && distinctSV rest

mutual
/-- No two keys of any mapping level share a normalized form. -/
def ncV : Val → Bool
  | .vDict items => distinctKV items && ncKV items
  | .vConfig ces _ => distinctSV ces && ncSV ces
  | _ => true

/-- The value side of ncV over int-or-text keyed items. -/
def ncKV : List (Key × Val) → Bool
  | [] => true
  | (_, v) :: rest => ncV v && ncKV rest

/-- The value side of ncV over string keyed items. -/
def ncSV : List (String × Val) → Bool
  | [] => true
  | (_, v) :: rest => ncV v && ncSV rest
end

/-- The four reserved descriptor field names. -/
def isFourName (s : String) : Bool :=
  s == "prefix" || s == "invalid" || s == "missing" || s == "suffix"

/-- A well-formed general-error descriptor as a user may write it: a mapping
whose keys normalize to distinct reserved names and whose values are strings. -/
def fourSub : Val → Bool
  | .vDict items =>
      distinctKV items && items.all (fun p => isFourName (identifier p.1) && isStrV p.2)
  | .vConfig ces _ =>
      distinctSV ces && ces.all (fun p => isFourName (identStr p.1) && isStrV p.2)
  | _ => false

mutual
/-- A well-formed error-messages tree: a bare string, or a mapping with
collision-free keys in which the reserved descriptor entry is a well-formed
descriptor, reserved-named fields are strings, and any other field is again
a well-formed tree. -/
def owfV : Val → Bool
  | .vStr _ => true
  | .vDict items => distinctKV items && owfKV items
  | .vConfig ces _ => distinctSV ces && owfSV ces
  | _ => false

/-- Entry check of owfV over int-or-text keyed items. -/
def owfKV : List (Key × Val) → Bool
  | [] => true
  | (k, v) :: rest =>
      (if identifier k = "_" then fourSub v
       else if isFourName (identifier k) then isStrV v
       else owfV v) && owfKV rest

/-- Entry check of owfV over string keyed items. -/
def owfSV : List (String × Val) → Bool
  | [] => true
  | (k, v) :: rest =>
      (if identStr k = "_" then fourSub v
       else if isFourName (identStr k) then isStrV v
       else owfV v) && owfSV rest
end

/-- A well-formed tree in converted form: as owfV, but plain dicts can no
longer occur because update turned every mapping into a Config. -/
def owfConv : Val → Bool
  | .vStr _ => true
  | .vConfig ces _ => distinctSV ces && owfSV ces
  | _ => false

/-- The key is present with a string value. -/
def strAt (es : List (String × Val)) (n : String) : Bool :=
  match lookupE es n with
  | some (.vStr _) => true
  | _ => false

/-- A complete prepared general-error descriptor: all four reserved names
present with string values, and nothing else. -/
def fourAllB (u : List (String × Val)) : Bool :=
  strAt u "prefix" && strAt u "invalid" && strAt u "missing" && strAt u "suffix" &&
  distinctSV u && u.all (fun p => isFourName p.1 && isStrV p.2)

/-- The class general_errors dict in converted entry form. -/
def genEntries : List (String × Val) :=
  [("prefix", .vStr "{path}.{name} "), ("invalid", .vStr "is invalid"),
   ("missing", .vStr "is missing"), ("suffix", .vStr ".")]

/-- A reserved-only descriptor list: every key a reserved name with a string
value, keys collision free. -/
def resStrL (l : List (String × Val)) : Bool :=
  distinctSV l && l.all (fun p => isFourName p.1 && isStrV p.2)

/-- The invariant of a prepared error-messages Config: no instance
attributes, a complete general-error descriptor under the reserved name, and
well-formed converted trees at every other field. -/
def pwfB (c : Cfg) : Bool :=
  c.attrs.isEmpty &&
  (match lookupE c.entries "_" with
   | some (.vConfig u ua) => ua.isEmpty && fourAllB u
   | _ => false) &&
  c.entries.all (fun p => p.1 == "_" || owfConv p.2)

mutual
/-- Totality of one check: its evaluation returns a boolean on every value
without raising, stated on the user-supplied callables. -/
def TotalC : Check → Prop
  | .ckList cs => TotalL cs
  | .ckSet cs => TotalL cs
  | .ckType _ => True
  | .ckFun f => ∀ v, ∃ b, f v = .ok b
  | .ckTuple f a k => ∀ v, ∃ b, evalTuple v f a k = .ok b
  | .ckVal _ => True

/-- Totality of every check of a list. -/
def TotalL : List Check → Prop
  | [] => True
  | c :: rest => TotalC c ∧ TotalL rest
end

mutual
/-- Totality of every check of a template. -/
def TotalT : Template → Prop
  | [] => True
  | (_, n) :: rest => TotalN n ∧ TotalT rest

/-- Totality of the checks of one template node. -/
def TotalN : TNode → Prop
  | .sub st => TotalT st
  | .chk ch => TotalC ch
end

/-! Basic lemmas about the association-list model of dicts. -/

theorem lookupE_insert (es : List (String × Val)) (k : String) (v : Val) (n : String) :
    lookupE (insertEntry es k v) n = if n = k then some v else lookupE es n := by
  induction es with
  | nil =>
      rcases eq_or_ne n k with rfl | hne
      · simp [insertEntry, lookupE]
      · simp [insertEntry, lookupE, hne, Ne.symm hne]
  | cons p rest ih =>
      obtain ⟨k0, v0⟩ := p
      by_cases h0 : k0 = k
      · subst h0
        rcases eq_or_ne n k0 with rfl | hne
        · simp [insertEntry, lookupE]
        · simp [insertEntry, lookupE, hne, Ne.symm hne]
      · rcases eq_or_ne n k0 with rfl | hne
        · simp [insertEntry, lookupE, h0, Ne.symm h0]
        · simp [insertEntry, lookupE, h0, hne, Ne.symm hne, ih]

theorem insertEntry_absent (es : List (String × Val)) (k : String) (v : Val)
    (h : lookupE es k = Option.none) : insertEntry es k v = es ++ [(k, v)] := by
  induction es with
  | nil => simp [insertEntry]
  | cons p rest ih =>
      obtain ⟨k0, v0⟩ := p
      simp only [lookupE] at h
      rcases eq_or_ne k0 k with rfl | hne
      · simp at h
      · simp only [insertEntry, hne, if_false]
        simp [hne] at h
        simp [ih h]

theorem insertEntry_self (es : List (String × Val)) (k : String) (v : Val)
    (h : lookupE es k = some v) : insertEntry es k v = es := by
  induction es with
  | nil => simp [lookupE] at h
  | cons p rest ih =>
      obtain ⟨k0, v0⟩ := p
      simp only [lookupE] at h
      rcases eq_or_ne k0 k with rfl | hne
      · simp at h
        simp [insertEntry, h]
      · simp [hne] at h
        simp [insertEntry, hne, ih h]

theorem lookupE_append (a b : List (String × Val)) (n : String) :
    lookupE (a ++ b) n =
      (match lookupE a n with
       | some w => some w
       | Option.none => lookupE b n) := by
  induction a with
  | nil => simp [lookupE]
  | cons p rest ih =>
      obtain ⟨k0, v0⟩ := p
      rcases eq_or_ne k0 n with rfl | hne
      · simp [lookupE]
      · simp [lookupE, hne, ih]

theorem lookupE_mem (es : List (String × Val)) (n : String) (w : Val)
    (h : lookupE es n = some w) : (n, w) ∈ es := by
  induction es with
  | nil => simp [lookupE] at h
  | cons p rest ih =>
      obtain ⟨k0, v0⟩ := p
      simp only [lookupE] at h
      rcases eq_or_ne k0 n with rfl | hne
      · simp at h; simp [h]
      · simp [hne] at h
        exact List.mem_cons_of_mem _ (ih h)

theorem lookupE_isEmpty (es : List (String × Val)) (n : String)
    (h : es.isEmpty = true) : lookupE es n = Option.none := by
  cases es with
  | nil => rfl
  | cons p rest => simp at h

/-! Lemmas about the key normalizer. -/

theorem translateChar_underscore : translateChar '_' = '_' := by
  unfold translateChar
  split <;> rfl

theorem translateChar_idem (c : Char) : translateChar (translateChar c) = translateChar c := by
  by_cases h : punctWs.contains c = true
  · have h2 : translateChar c = '_' := by unfold translateChar; rw [if_pos h]
    rw [h2, translateChar_underscore]
  · have h2 : translateChar c = c := by unfold translateChar; rw [if_neg h]
    simp only [h2]

theorem translateChar_not_digit (c : Char) (h : c.isDigit = false) :
    (translateChar c).isDigit = false := by
  unfold translateChar
  split
  · decide
  · exact h

theorem identChars_idem (l : List Char) : identChars (identChars l) = identChars l := by
  cases l with
  | nil => rfl
  | cons c rest =>
      have hcomp : translateChar ∘ translateChar = translateChar :=
        funext translateChar_idem
      by_cases hd : c.isDigit = true
      · have hu : ('_' : Char).isDigit = false := by decide
        simp [identChars, hd, translateChar_underscore, hu, List.map_map, hcomp,
          translateChar_idem]
      · have hd2 : c.isDigit = false := by simpa using hd
        have htc : (translateChar c).isDigit = false := translateChar_not_digit c hd2
        simp [identChars, hd2, htc, List.map_map, hcomp, translateChar_idem]

theorem identStr_idem (s : String) : identStr (identStr s) = identStr s := by
  show String.mk (identChars (String.mk (identChars s.toList)).toList) = _
  have h2 : (String.mk (identChars s.toList)).toList = identChars s.toList := rfl
  rw [h2, identChars_idem]
  rfl

theorem identifier_idem (k : Key) : identStr (identifier k) = identifier k := by
  cases k with
  | str s => exact identStr_idem s
  | int n => exact identStr_idem (toString n)

theorem identifier_str_identifier (k : Key) :
    identifier (Key.str (identifier k)) = identifier k := by
  show identStr (identifier k) = identifier k
  exact identifier_idem k

theorem identifier_str_identStr (s : String) :
    identifier (Key.str (identStr s)) = identStr s := by
  show identStr (identStr s) = identStr s
  exact identStr_idem s

theorem identifier_str_eq (s : String) : identifier (Key.str s) = identStr s := rfl

/-- C10: key normalization is idempotent for every text or integer key, and
consequently looking up an already-normalized field name is decided purely by
that name: the normalized-retry path of get looks up the very same name, so a
stored normalized name resolves to its own entry. -/
theorem c10_identifier_idempotent :
    (∀ k : Key, identStr (identifier k) = identifier k) ∧
    (∀ (es : List (String × Val)) (k : Key),
      getItem es (.str (identifier k)) =
        (match lookupE es (identifier k) with
         | some v => Except.ok v
         | Option.none => Except.error PyErr.keyError)) := by
  refine ⟨identifier_idem, ?_⟩
  intro es k
  show (match lookupE es (identifier k) with
        | some v => Except.ok v
        | Option.none =>
            match lookupE es (identifier (.str (identifier k))) with
            | some v => Except.ok v
            | Option.none => Except.error PyErr.keyError) = _
  have : identifier (Key.str (identifier k)) = identifier k := identifier_idem k
  rw [this]
  cases lookupE es (identifier k) <;> rfl

/-! Lemmas about the Except monad operations the embedding uses. -/

theorem bind_ok {α β : Type} (a : α) (f : α → Except PyErr β) :
    (Except.ok a >>= f : Except PyErr β) = f a := rfl

theorem bind_error {α β : Type} (e : PyErr) (f : α → Except PyErr β) :
    (Except.error e >>= f : Except PyErr β) = Except.error e := rfl

theorem pure_ok {α : Type} (a : α) : (pure a : Except PyErr α) = Except.ok a := rfl

/-! Lemmas about the check engine. -/

theorem anyCheck_cons (v : Val) (c : Check) (rest : List Check) (b : Bool)
    (hb : checkFn v c = .ok b) :
    anyCheck v (c :: rest) = if b then .ok true else anyCheck v rest := by
  show (checkFn v c >>= fun b => if b = true then pure true else anyCheck v rest) = _
  rw [hb, bind_ok]
  cases b <;> simp [pure_ok]

theorem allCheck_cons (v : Val) (c : Check) (rest : List Check) (b : Bool)
    (hb : checkFn v c = .ok b) :
    allCheck v (c :: rest) = if b then allCheck v rest else .ok false := by
  show (checkFn v c >>= fun b => if b = true then allCheck v rest else pure false) = _
  rw [hb, bind_ok]
  cases b <;> simp [pure_ok]

theorem anyCheck_total_iff (v : Val) (cs : List Check)
    (h : ∀ c ∈ cs, ∃ b, checkFn v c = .ok b) :
    (anyCheck v cs = .ok true ↔ ∃ c ∈ cs, checkFn v c = .ok true) := by
  induction cs with
  | nil => simp [anyCheck]
  | cons c rest ih =>
      obtain ⟨b, hb⟩ := h c (List.mem_cons_self c rest)
      have hrest := fun c hc => h c (List.mem_cons_of_mem _ hc)
      rw [anyCheck_cons v c rest b hb]
      cases b with
      | true => simp [hb]
      | false =>
          simp only [Bool.false_eq_true, if_false, ih hrest]
          constructor
          · rintro ⟨c2, hc2, h2⟩
            exact ⟨c2, List.mem_cons_of_mem _ hc2, h2⟩
          · rintro ⟨c2, hc2, h2⟩
            rcases List.mem_cons.mp hc2 with rfl | hc2
            · rw [hb] at h2
              cases h2
            · exact ⟨c2, hc2, h2⟩

theorem allCheck_total_iff (v : Val) (cs : List Check)
    (h : ∀ c ∈ cs, ∃ b, checkFn v c = .ok b) :
    (allCheck v cs = .ok true ↔ ∀ c ∈ cs, checkFn v c = .ok true) := by
  induction cs with
  | nil => simp [allCheck]
  | cons c rest ih =>
      obtain ⟨b, hb⟩ := h c (List.mem_cons_self c rest)
      have hrest := fun c hc => h c (List.mem_cons_of_mem _ hc)
      rw [allCheck_cons v c rest b hb]
      cases b with
      | true =>
          simp only [if_true]
          rw [ih hrest]
          constructor
          · intro hall c2 hc2
            rcases List.mem_cons.mp hc2 with rfl | hc2
            · exact hb
            · exact hall c2 hc2
          · intro hall c2 hc2
            exact hall c2 (List.mem_cons_of_mem _ hc2)
      | false =>
          simp only [Bool.false_eq_true, if_false]
          constructor
          · intro hfalse
            cases hfalse
          · intro hall
            have h2 := hall c (List.mem_cons_self c rest)
            rw [hb] at h2
            cases h2

theorem anyCheck_short_circuit (v : Val) (cs1 : List Check) (c : Check) (cs2 : List Check)
    (h1 : ∀ c2 ∈ cs1, checkFn v c2 = .ok false) (h : checkFn v c = .ok true) :
    anyCheck v (cs1 ++ c :: cs2) = .ok true := by
  induction cs1 with
  | nil =>
      rw [List.nil_append, anyCheck_cons v c cs2 true h]
      simp
  | cons c0 rest ih =>
      have h0 := h1 c0 (List.mem_cons_self c0 rest)
      rw [List.cons_append, anyCheck_cons v c0 (rest ++ c :: cs2) false h0]
      simp only [Bool.false_eq_true, if_false]
      exact ih fun c2 hc2 => h1 c2 (List.mem_cons_of_mem _ hc2)

theorem allCheck_short_circuit (v : Val) (cs1 : List Check) (c : Check) (cs2 : List Check)
    (h1 : ∀ c2 ∈ cs1, checkFn v c2 = .ok true) (h : checkFn v c = .ok false) :
    allCheck v (cs1 ++ c :: cs2) = .ok false := by
  induction cs1 with
  | nil =>
      rw [List.nil_append, allCheck_cons v c cs2 false h]
      simp
  | cons c0 rest ih =>
      have h0 := h1 c0 (List.mem_cons_self c0 rest)
      rw [List.cons_append, allCheck_cons v c0 (rest ++ c :: cs2) true h0]
      simp only [if_true]
      exact ih fun c2 hc2 => h1 c2 (List.mem_cons_of_mem _ hc2)

/-- C5: evaluation of a list check passes iff some element passes and stops at
the first success, evaluation of a set check passes iff every element passes
and stops at the first failure, an empty list check fails, and an empty set
check passes. -/
theorem c5_any_all_checks :
    (∀ (v : Val) (cs : List Check), (∀ c ∈ cs, ∃ b, checkFn v c = .ok b) →
      (checkFn v (.ckList cs) = .ok true ↔ ∃ c ∈ cs, checkFn v c = .ok true)) ∧
    (∀ (v : Val) (cs1 : List Check) (c : Check) (cs2 : List Check),
      (∀ c2 ∈ cs1, checkFn v c2 = .ok false) → checkFn v c = .ok true →
      checkFn v (.ckList (cs1 ++ c :: cs2)) = .ok true) ∧
    (∀ (v : Val) (cs : List Check), (∀ c ∈ cs, ∃ b, checkFn v c = .ok b) →
      (checkFn v (.ckSet cs) = .ok true ↔ ∀ c ∈ cs, checkFn v c = .ok true)) ∧
    (∀ (v : Val) (cs1 : List Check) (c : Check) (cs2 : List Check),
      (∀ c2 ∈ cs1, checkFn v c2 = .ok true) → checkFn v c = .ok false →
      checkFn v (.ckSet (cs1 ++ c :: cs2)) = .ok false) ∧
    (∀ v : Val, checkFn v (.ckList []) = .ok false) ∧
    (∀ v : Val, checkFn v (.ckSet []) = .ok true) := by
  refine ⟨?_, ?_, ?_, ?_, ?_, ?_⟩
  · intro v cs h
    show anyCheck v cs = .ok true ↔ _
    exact anyCheck_total_iff v cs h
  · intro v cs1 c cs2 h1 h
    exact anyCheck_short_circuit v cs1 c cs2 h1 h
  · intro v cs h
    show allCheck v cs = .ok true ↔ _
    exact allCheck_total_iff v cs h
  · intro v cs1 c cs2 h1 h
    exact allCheck_short_circuit v cs1 c cs2 h1 h
  · intro v; rfl
  · intro v; rfl

/-- Witness for C5 at concrete inputs: a list check with a failing head and a
passing second element evaluates true by the short-circuit clause. -/
theorem c5_any_all_checks_witness :
    checkFn (.vInt 3) (.ckList ([.ckType .tyBool] ++ .ckType .tyInt :: [])) = .ok true :=
  c5_any_all_checks.2.1 (.vInt 3) [.ckType .tyBool] (.ckType .tyInt) []
    (by
      intro c2 hc2
      rcases List.mem_singleton.mp hc2 with rfl
      rfl)
    rfl

/-- C3: at the concrete store with a = 0 and a template requiring bool at a
and at b, field a is reported invalid first, and the later missing report for
b is invoked with the formatting context missing = false and value = 0 left
over from the earlier invalid report, not with missing = true and an absent
value as the documentation of the reporting hook describes; the
missing-situation message itself is resolved correctly. -/
theorem c3_missing_context_stale :
    followsTemplate ⟨[("a", .vInt 0)], []⟩
      [(.str "a", .chk (.ckType .tyBool)), (.str "b", .chk (.ckType .tyBool))]
      (.vDict []) =
    .ok (false,
      [(.vStr "{path}.{name} is invalid.",
        { missing := false, name := some (.str "a"), path := "", value := some (.vInt 0) }),
       (.vStr "{path}.{name} is missing.",
        { missing := false, name := some (.str "b"), path := "", value := some (.vInt 0) })]) := by
  rfl

theorem getItem_str (es : List (String × Val)) (s : String) :
    getItem es (.str s) =
      (match lookupE es s with
       | some v => Except.ok v
       | Option.none =>
         match lookupE es (identStr s) with
         | some v => Except.ok v
         | Option.none => Except.error PyErr.keyError) := rfl

theorem getItem_int (es : List (String × Val)) (n : Int) :
    getItem es (.int n) =
      (match lookupE es (identStr (toString n)) with
       | some v => Except.ok v
       | Option.none => Except.error PyErr.keyError) := rfl

theorem getAttr_eq (c : Cfg) (a : String) :
    getAttr c a =
      (match lookupE c.attrs a with
       | some v => Except.ok v
       | Option.none =>
         match getItem c.entries (.str a) with
         | .ok v => Except.ok v
         | .error _ => Except.error PyErr.attributeError) := rfl

/-- C4, amended: after merging one text-or-integer key with a non-mapping
value into a store whose dict keys are normalized and whose instance
attributes do not shadow the normalized key, the raw get, the normalized get,
and member-style access all return that value; and the concrete store built
from the 1337 and A scenario behaves as described. -/
theorem c4_merge_then_access :
    (∀ (c : Cfg) (k : Key) (v : Val),
      isMapping v = false →
      (∀ p ∈ c.entries, identStr p.1 = p.1) →
      lookupE c.attrs (identifier k) = Option.none →
      ∃ c2, updateCfg c (.vDict [(k, v)]) = .ok c2 ∧
        getItem c2.entries k = .ok v ∧
        getItem c2.entries (.str (identifier k)) = .ok v ∧
        getAttr c2 (identifier k) = .ok v) ∧
    (∃ d, configNew (.vDict [(.int 1337, .vStr "x"),
          (.str "A", .vDict [(.str "ASCII", .vInt 65)])]) (.vDict []) = .ok d ∧
      getItem d.entries (.int 1337) = .ok (.vStr "x") ∧
      getItem d.entries (.str "_1337") = .ok (.vStr "x") ∧
      getItem d.entries (.str "A") = .ok (.vConfig [("ASCII", .vInt 65)] []) ∧
      getItem [("ASCII", Val.vInt 65)] (.str "ASCII") = .ok (.vInt 65)) := by
  constructor
  · intro c k v hv hnorm hsh
    have hupd : updateCfg c (.vDict [(k, v)]) =
        .ok ⟨insertEntry c.entries (identifier k) v, c.attrs⟩ := by
      unfold updateCfg updAny
      simp [convKV, hv, Except.map]
    have hK : lookupE (insertEntry c.entries (identifier k) v) (identifier k) = some v := by
      rw [lookupE_insert]
      simp
    have hnormget : getItem (insertEntry c.entries (identifier k) v)
        (.str (identifier k)) = .ok v := by
      rw [getItem_str, hK]
    refine ⟨_, hupd, ?_, hnormget, ?_⟩
    · show getItem (insertEntry c.entries (identifier k) v) k = .ok v
      cases k with
      | int n =>
          rw [getItem_int]
          have h3 : identStr (toString n) = identifier (Key.int n) := rfl
          rw [h3, hK]
      | str s =>
          rw [getItem_str]
          by_cases hs : s = identifier (Key.str s)
          · rw [← hs] at hK
            rw [← hs]
            rw [hK]
          · have h0 : lookupE (insertEntry c.entries (identifier (Key.str s)) v) s =
                lookupE c.entries s := by
              rw [lookupE_insert]
              simp [hs]
            have h1 : lookupE c.entries s = Option.none := by
              cases hcc : lookupE c.entries s with
              | none => rfl
              | some w =>
                  exfalso
                  have hm := lookupE_mem _ _ _ hcc
                  have h2 := hnorm _ hm
                  exact hs (h2.symm)
            rw [h0, h1]
            have h3 : identStr s = identifier (Key.str s) := rfl
            rw [h3, hK]
    · show getAttr ⟨insertEntry c.entries (identifier k) v, c.attrs⟩ (identifier k) = .ok v
      rw [getAttr_eq]
      show (match lookupE c.attrs (identifier k) with
            | some v => Except.ok v
            | Option.none =>
              match getItem (insertEntry c.entries (identifier k) v)
                  (.str (identifier k)) with
              | .ok v => Except.ok v
              | .error _ => Except.error PyErr.attributeError) = .ok v
      rw [hsh, hnormget]
  · exact ⟨⟨[("_1337", .vStr "x"), ("A", .vConfig [("ASCII", .vInt 65)] [])], []⟩,
      rfl, rfl, rfl, rfl, rfl⟩

/-- Witness for C4 at concrete inputs: merging the key a.b with value 7 into
an empty store makes all three access paths return 7. -/
theorem c4_merge_then_access_witness :
    ∃ c2, updateCfg ⟨[], []⟩ (.vDict [(.str "a.b", .vInt 7)]) = .ok c2 ∧
      getItem c2.entries (.str "a.b") = .ok (.vInt 7) ∧
      getItem c2.entries (.str (identifier (.str "a.b"))) = .ok (.vInt 7) ∧
      getAttr c2 (identifier (.str "a.b")) = .ok (.vInt 7) :=
  c4_merge_then_access.1 ⟨[], []⟩ (.str "a.b") (.vInt 7) rfl
    (by intro p hp; simp at hp) rfl

/-- Counterexample for C4 as stated: after an ordinary attribute x was set on
a store while x was absent from the dict, merging x with value 7 updates the
dict, yet member-style access on the normalized name still returns the
shadowing attribute 5, not 7. -/
theorem c4_shadowing_cex :
    updateCfg (setAttr ⟨[], []⟩ "x" (.vInt 5)) (.vDict [(.str "x", .vInt 7)]) =
      .ok ⟨[("x", .vInt 7)], [("x", .vInt 5)]⟩ ∧
    getAttr ⟨[("x", .vInt 7)], [("x", .vInt 5)]⟩ "x" = .ok (.vInt 5) ∧
    ¬ getAttr ⟨[("x", .vInt 7)], [("x", .vInt 5)]⟩ "x" = .ok (.vInt 7) := by
  refine ⟨rfl, rfl, ?_⟩
  intro h
  have h2 := congrArg projIntR h
  exact absurd h2 (by decide)

/-- C8, amended: member-style assignment to a name present in the dict and
not shadowed by an ordinary attribute overwrites the stored value so that
both map-style and member-style reads observe the new value; member-style
assignment to a name on which get fails leaves the dict untouched, get keeps
failing with KeyError, and the value lands in the ordinary attributes. -/
theorem c8_setattr_behavior :
    (∀ (c : Cfg) (a : String) (v w : Val),
      lookupE c.entries a = some w →
      lookupE c.attrs a = Option.none →
      lookupE (setAttr c a v).entries a = some v ∧
      getItem (setAttr c a v).entries (.str a) = .ok v ∧
      getAttr (setAttr c a v) a = .ok v ∧
      (setAttr c a v).attrs = c.attrs) ∧
    (∀ (c : Cfg) (a : String) (v : Val),
      getItem c.entries (.str a) = .error .keyError →
      (setAttr c a v).entries = c.entries ∧
      getItem (setAttr c a v).entries (.str a) = .error .keyError ∧
      lookupE (setAttr c a v).attrs a = some v) := by
  constructor
  · intro c a v w hw hsh
    have hset : setAttr c a v = ⟨insertEntry c.entries a v, c.attrs⟩ := by
      unfold setAttr
      rw [hw]
      simp
    rw [hset]
    have hK : lookupE (insertEntry c.entries a v) a = some v := by
      rw [lookupE_insert]
      simp
    have hget : getItem (insertEntry c.entries a v) (.str a) = .ok v := by
      rw [getItem_str, hK]
    refine ⟨hK, hget, ?_, rfl⟩
    rw [getAttr_eq]
    show (match lookupE c.attrs a with
          | some v => Except.ok v
          | Option.none =>
            match getItem (insertEntry c.entries a v) (.str a) with
            | .ok v => Except.ok v
            | .error _ => Except.error PyErr.attributeError) = .ok v
    rw [hsh, hget]
  · intro c a v hfail
    have hraw : lookupE c.entries a = Option.none := by
      cases hcc : lookupE c.entries a with
      | none => rfl
      | some w =>
          exfalso
          rw [getItem_str, hcc] at hfail
          cases hfail
    have hset : setAttr c a v = ⟨c.entries, insertEntry c.attrs a v⟩ := by
      unfold setAttr
      rw [hraw]
      simp
    rw [hset]
    refine ⟨rfl, hfail, ?_⟩
    show lookupE (insertEntry c.attrs a v) a = some v
    rw [lookupE_insert]
    simp

/-- Witness for C8 at concrete inputs: overwriting a present unshadowed field
and assigning to an absent name behave as the amended claim states. -/
theorem c8_setattr_behavior_witness :
    (lookupE (setAttr ⟨[("y", .vInt 1)], []⟩ "y" (.vInt 2)).entries "y" = some (.vInt 2) ∧
     getItem (setAttr ⟨[("y", .vInt 1)], []⟩ "y" (.vInt 2)).entries (.str "y") = .ok (.vInt 2) ∧
     getAttr (setAttr ⟨[("y", .vInt 1)], []⟩ "y" (.vInt 2)) "y" = .ok (.vInt 2) ∧
     (setAttr ⟨[("y", .vInt 1)], []⟩ "y" (.vInt 2)).attrs = ([] : List (String × Val))) ∧
    ((setAttr ⟨[], []⟩ "z" (.vInt 3)).entries = ([] : List (String × Val)) ∧
     getItem (setAttr ⟨[], []⟩ "z" (.vInt 3)).entries (.str "z") = .error .keyError ∧
     lookupE (setAttr ⟨[], []⟩ "z" (.vInt 3)).attrs "z" = some (.vInt 3)) :=
  ⟨c8_setattr_behavior.1 ⟨[("y", .vInt 1)], []⟩ "y" (.vInt 2) (.vInt 1) rfl rfl,
   c8_setattr_behavior.2 ⟨[], []⟩ "z" (.vInt 3) rfl⟩

/-! Lemmas about the frame relation SP and set_defaults. -/

theorem sp_unfold (es es2 : List (String × Val)) :
    SP es es2 ↔
      ((∀ n w, lookupE es n = some w → isConfigV w = false → lookupE es2 n = some w) ∧
       (∀ (n : String) (ne na : List (String × Val)),
          lookupE es n = some (.vConfig ne na) →
          ∃ ne2, lookupE es2 n = some (.vConfig ne2 na) ∧ SP ne ne2)) := by
  rw [SP]

theorem lookupE_sizeOf (es : List (String × Val)) (n : String) (w : Val)
    (h : lookupE es n = some w) : sizeOf w < sizeOf es := by
  induction es with
  | nil => simp [lookupE] at h
  | cons p rest ih =>
      obtain ⟨k, v⟩ := p
      simp only [lookupE] at h
      rcases eq_or_ne k n with rfl | hne
      · simp at h
        subst h
        simp only [List.cons.sizeOf_spec, Prod.mk.sizeOf_spec]
        omega
      · simp [hne] at h
        have h2 := ih h
        simp only [List.cons.sizeOf_spec, Prod.mk.sizeOf_spec]
        omega

theorem sp_refl (es : List (String × Val)) : SP es es := by
  suffices H : ∀ (N : Nat) (es : List (String × Val)), sizeOf es < N → SP es es from
    H (sizeOf es + 1) es (by omega)
  intro N
  induction N with
  | zero => intro es h; omega
  | succ N ih =>
      intro es h
      refine (sp_unfold es es).mpr ⟨fun n w hw _ => hw, ?_⟩
      intro n ne na hw
      refine ⟨ne, hw, ?_⟩
      have hs := lookupE_sizeOf _ _ _ hw
      simp only [Val.vConfig.sizeOf_spec] at hs
      exact ih ne (by omega)

theorem sp_trans (a b c : List (String × Val)) (h1 : SP a b) (h2 : SP b c) : SP a c := by
  suffices H : ∀ (N : Nat) (a b c : List (String × Val)), sizeOf a < N →
      SP a b → SP b c → SP a c from H (sizeOf a + 1) a b c (by omega) h1 h2
  intro N
  induction N with
  | zero => intro a b c h; omega
  | succ N ih =>
      intro a b c ha h1 h2
      rw [sp_unfold] at h1 h2
      obtain ⟨s1, c1⟩ := h1
      obtain ⟨s2, c2⟩ := h2
      refine (sp_unfold a c).mpr ⟨?_, ?_⟩
      · intro n w hw hs
        exact s2 n w (s1 n w hw hs) hs
      · intro n ne na hw
        obtain ⟨ne2, hb, hsp⟩ := c1 n ne na hw
        obtain ⟨ne3, hc, hsp2⟩ := c2 n ne2 na hb
        have hs := lookupE_sizeOf _ _ _ hw
        simp only [Val.vConfig.sizeOf_spec] at hs
        exact ⟨ne3, hc, ih ne ne2 ne3 (by omega) hsp hsp2⟩

theorem sp_insert_absent (es : List (String × Val)) (k : String) (v : Val)
    (h : lookupE es k = Option.none) : SP es (insertEntry es k v) := by
  rw [insertEntry_absent es k v h]
  refine (sp_unfold _ _).mpr ⟨?_, ?_⟩
  · intro n w hw _
    rw [lookupE_append, hw]
  · intro n ne na hw
    refine ⟨ne, ?_, sp_refl ne⟩
    rw [lookupE_append, hw]

theorem sp_insert_config (es : List (String × Val)) (k : String)
    (we wa we2 : List (String × Val))
    (h : lookupE es k = some (.vConfig we wa)) (hsp : SP we we2) :
    SP es (insertEntry es k (.vConfig we2 wa)) := by
  refine (sp_unfold _ _).mpr ⟨?_, ?_⟩
  · intro n w hw hs
    rw [lookupE_insert]
    rcases eq_or_ne n k with rfl | hne
    · rw [h] at hw
      injection hw with h2
      rw [← h2] at hs
      simp [isConfigV] at hs
    · simp only [hne, if_false]
      exact hw
  · intro n ne na hw
    rw [lookupE_insert]
    rcases eq_or_ne n k with rfl | hne
    · rw [h] at hw
      injection hw with h2
      injection h2 with e1 e2
      subst e1
      subst e2
      exact ⟨we2, by simp, hsp⟩
    · simp only [hne, if_false]
      exact ⟨ne, hw, sp_refl ne⟩

theorem convKV_single (es : List (String × Val)) (k : Key) (v : Val) :
    convKV es [(k, v)] = insertEntry es (identifier k) (if isMapping v then conv v else v) := by
  simp [convKV]

theorem isMapping_conv (v : Val) (h : isMapping v = true) : isMapping (conv v) = true := by
  cases v <;> simp [isMapping, conv] at h ⊢

theorem sd_sp_main : ∀ (N : Nat),
    (∀ (d : List (Key × Val)) (es es2 : List (String × Val)), sizeOf d < N →
        sdKV es d = .ok es2 → SP es es2) ∧
    (∀ (d : List (String × Val)) (es es2 : List (String × Val)), sizeOf d < N →
        sdSV es d = .ok es2 → SP es es2) := by
  intro N
  induction N with
  | zero => exact ⟨fun d es es2 hd => by omega, fun d es es2 hd => by omega⟩
  | succ N ih =>
      obtain ⟨ihK, ihS⟩ := ih
      have hval : ∀ (v : Val) (we we2 : List (String × Val)), sizeOf v < N →
          sdVal we v = .ok we2 → SP we we2 := by
        intro v we we2 hv h
        cases v with
        | vDict items =>
            have hs : sizeOf items < N := by
              simp only [Val.vDict.sizeOf_spec] at hv
              omega
            exact ihK items we we2 hs h
        | vConfig ces cas =>
            have hs : sizeOf ces < N := by
              simp only [Val.vConfig.sizeOf_spec] at hv
              omega
            exact ihS ces we we2 hs h
        | vInt a => simp [sdVal] at h
        | vStr a => simp [sdVal] at h
        | vBool a => simp [sdVal] at h
        | vNone => simp [sdVal] at h
      constructor
      · intro d es es2 hd h
        cases d with
        | nil =>
            simp only [sdKV] at h
            injection h with h2
            subst h2
            exact sp_refl es
        | cons p rest =>
            obtain ⟨k, v⟩ := p
            have hrest : sizeOf rest < N := by
              simp only [List.cons.sizeOf_spec] at hd
              omega
            have hv : sizeOf v < N := by
              simp only [List.cons.sizeOf_spec, Prod.mk.sizeOf_spec] at hd
              omega
            simp only [sdKV] at h
            split at h
            · -- mapping default value
              split at h
              · -- absent: filled with a fresh Config
                next hl =>
                  rw [convKV_single] at h
                  rw [if_pos (isMapping_conv v (by assumption))] at h
                  have hid : identifier (Key.str (identifier k)) = identifier k :=
                    identifier_idem k
                  rw [hid] at h
                  exact sp_trans _ _ _ (sp_insert_absent _ _ _ hl) (ihK rest _ _ hrest h)
              · -- present
                next w hl =>
                  split at h
                  · -- present as a nested Config: recurse
                    next we wa =>
                      split at h
                      · next we2 hsd =>
                          exact sp_trans _ _ _
                            (sp_insert_config _ _ _ _ _ hl (hval v we we2 hv hsd))
                            (ihK rest _ _ hrest h)
                      · cases h
                  · cases h
            · -- non-mapping default value
              split at h
              · next hl =>
                  rw [convKV_single] at h
                  rw [if_neg (by simp_all)] at h
                  have hid : identifier (Key.str (identifier k)) = identifier k :=
                    identifier_idem k
                  rw [hid] at h
                  exact sp_trans _ _ _ (sp_insert_absent _ _ _ hl) (ihK rest _ _ hrest h)
              · exact ihK rest _ _ hrest h
      · intro d es es2 hd h
        cases d with
        | nil =>
            simp only [sdSV] at h
            injection h with h2
            subst h2
            exact sp_refl es
        | cons p rest =>
            obtain ⟨k, v⟩ := p
            have hrest : sizeOf rest < N := by
              simp only [List.cons.sizeOf_spec] at hd
              omega
            have hv : sizeOf v < N := by
              simp only [List.cons.sizeOf_spec, Prod.mk.sizeOf_spec] at hd
              omega
            simp only [sdSV] at h
            split at h
            · split at h
              · next hl =>
                  rw [convKV_single] at h
                  rw [if_pos (isMapping_conv v (by assumption))] at h
                  have hid : identifier (Key.str (identStr k)) = identStr k :=
                    identStr_idem k
                  rw [hid] at h
                  exact sp_trans _ _ _ (sp_insert_absent _ _ _ hl) (ihS rest _ _ hrest h)
              · next w hl =>
                  split at h
                  · next we wa =>
                      split at h
                      · next we2 hsd =>
                          exact sp_trans _ _ _
                            (sp_insert_config _ _ _ _ _ hl (hval v we we2 hv hsd))
                            (ihS rest _ _ hrest h)
                      · cases h
                  · cases h
            · split at h
              · next hl =>
                  rw [convKV_single] at h
                  rw [if_neg (by simp_all)] at h
                  have hid : identifier (Key.str (identStr k)) = identStr k :=
                    identStr_idem k
                  rw [hid] at h
                  exact sp_trans _ _ _ (sp_insert_absent _ _ _ hl) (ihS rest _ _ hrest h)
              · exact ihS rest _ _ hrest h

theorem sdVal_sp (es : List (String × Val)) (d : Val) (es2 : List (String × Val))
    (h : sdVal es d = .ok es2) : SP es es2 := by
  cases d with
  | vDict items => exact (sd_sp_main (sizeOf items + 1)).1 items es es2 (by omega) h
  | vConfig ces cas => exact (sd_sp_main (sizeOf ces + 1)).2 ces es es2 (by omega) h
  | vInt a => simp [sdVal] at h
  | vStr a => simp [sdVal] at h
  | vBool a => simp [sdVal] at h
  | vNone => simp [sdVal] at h

/-- C2, amended: whenever set_defaults succeeds, every field present as a
non-Config value is left with exactly that value at every nesting depth,
while fields present as nested Configs stay Configs related by the same frame
relation; when the defaults supply a nested mapping under a field present as
a scalar, set_defaults does not leave it untouched but raises AttributeError
instead (see the counterexample). -/
theorem c2_set_defaults_frame (c : Cfg) (d : Val) (c2 : Cfg)
    (h : setDefaultsCfg c d = .ok c2) :
    SP c.entries c2.entries ∧ c2.attrs = c.attrs := by
  unfold setDefaultsCfg at h
  cases hv : sdVal c.entries d with
  | error e =>
      rw [hv] at h
      simp [Except.map] at h
  | ok es2 =>
      rw [hv] at h
      simp only [Except.map] at h
      injection h with h2
      rw [← h2]
      exact ⟨sdVal_sp _ _ _ hv, rfl⟩

/-- Witness for C2 at concrete inputs: filling the defaults a and b into a
store holding a scalar a leaves a unchanged and appends b. -/
theorem c2_set_defaults_frame_witness :
    SP [("a", Val.vInt 1)] [("a", Val.vInt 1), ("b", Val.vInt 3)] ∧
    ([] : List (String × Val)) = [] :=
  c2_set_defaults_frame ⟨[("a", .vInt 1)], []⟩
    (.vDict [(.str "a", .vInt 2), (.str "b", .vInt 3)])
    ⟨[("a", .vInt 1), ("b", .vInt 3)], []⟩ rfl

/-- Counterexample for C2 as stated: defaults supplying a nested mapping
under the field a that is present as the scalar 1 make set_defaults raise
AttributeError rather than leave the field untouched. -/
theorem c2_scalar_nested_default_cex :
    setDefaultsCfg ⟨[("a", .vInt 1)], []⟩ (.vDict [(.str "a", .vDict [(.str "b", .vInt 2)])]) =
      .error .attributeError ∧
    ∀ c2 : Cfg, ¬ setDefaultsCfg ⟨[("a", .vInt 1)], []⟩
        (.vDict [(.str "a", .vDict [(.str "b", .vInt 2)])]) = .ok c2 := by
  refine ⟨rfl, ?_⟩
  intro c2 h
  exact Except.noConfusion h

/-! Lemmas about conversion under collision-free keys, and saturation. -/

theorem mem_sizeOf_KV (items : List (Key × Val)) (k : Key) (v : Val)
    (h : (k, v) ∈ items) : sizeOf v < sizeOf items := by
  induction items with
  | nil => simp at h
  | cons p rest ih =>
      rcases List.mem_cons.mp h with heq | h2
      · rw [← heq]
        simp only [List.cons.sizeOf_spec, Prod.mk.sizeOf_spec]
        omega
      · have := ih h2
        simp only [List.cons.sizeOf_spec]
        omega

theorem mem_sizeOf_SV (items : List (String × Val)) (k : String) (v : Val)
    (h : (k, v) ∈ items) : sizeOf v < sizeOf items := by
  induction items with
  | nil => simp at h
  | cons p rest ih =>
      rcases List.mem_cons.mp h with heq | h2
      · rw [← heq]
        simp only [List.cons.sizeOf_spec, Prod.mk.sizeOf_spec]
        omega
      · have := ih h2
        simp only [List.cons.sizeOf_spec]
        omega

theorem distinctKV_head (k0 : Key) (v0 : Val) (rest : List (Key × Val))
    (h : distinctKV ((k0, v0) :: rest) = true) :
    (∀ p ∈ rest, identifier p.1 ≠ identifier k0) ∧ distinctKV rest = true := by
  simp only [distinctKV, Bool.and_eq_true, Bool.not_eq_true', List.any_eq_false] at h
  obtain ⟨hno, hrest⟩ := h
  refine ⟨?_, hrest⟩
  intro p hp
  have := hno p hp
  simpa using this

theorem distinctSV_head (k0 : String) (v0 : Val) (rest : List (String × Val))
    (h : distinctSV ((k0, v0) :: rest) = true) :
    (∀ p ∈ rest, identStr p.1 ≠ identStr k0) ∧ distinctSV rest = true := by
  simp only [distinctSV, Bool.and_eq_true, Bool.not_eq_true', List.any_eq_false] at h
  obtain ⟨hno, hrest⟩ := h
  refine ⟨?_, hrest⟩
  intro p hp
  have := hno p hp
  simpa using this

theorem lookupE_map_distinctKV (items : List (Key × Val)) (g : Val → Val) (k : Key) (v : Val)
    (hdist : distinctKV items = true) (hm : (k, v) ∈ items) :
    lookupE (items.map (fun p => (identifier p.1, g p.2))) (identifier k) = some (g v) := by
  induction items with
  | nil => simp at hm
  | cons p rest ih =>
      obtain ⟨k0, v0⟩ := p
      obtain ⟨hno, hdrest⟩ := distinctKV_head k0 v0 rest hdist
      rcases List.mem_cons.mp hm with heq | hm2
      · cases heq
        simp [lookupE]
      · have hne : identifier k0 ≠ identifier k := Ne.symm (hno (k, v) hm2)
        simp only [List.map_cons, lookupE, hne, if_false]
        exact ih hdrest hm2

theorem lookupE_map_distinctSV (items : List (String × Val)) (g : Val → Val) (k : String)
    (v : Val) (hdist : distinctSV items = true) (hm : (k, v) ∈ items) :
    lookupE (items.map (fun p => (identStr p.1, g p.2))) (identStr k) = some (g v) := by
  induction items with
  | nil => simp at hm
  | cons p rest ih =>
      obtain ⟨k0, v0⟩ := p
      obtain ⟨hno, hdrest⟩ := distinctSV_head k0 v0 rest hdist
      rcases List.mem_cons.mp hm with heq | hm2
      · cases heq
        simp [lookupE]
      · have hne : identStr k0 ≠ identStr k := Ne.symm (hno (k, v) hm2)
        simp only [List.map_cons, lookupE, hne, if_false]
        exact ih hdrest hm2

theorem convKV_map (items : List (Key × Val)) :
    ∀ (es : List (String × Val)),
      (∀ p ∈ items, lookupE es (identifier p.1) = Option.none) →
      distinctKV items = true →
      convKV es items =
        es ++ items.map (fun p => (identifier p.1, if isMapping p.2 then conv p.2 else p.2)) := by
  induction items with
  | nil => intro es _ _; simp [convKV]
  | cons p rest ih =>
      intro es habs hdist
      obtain ⟨k, v⟩ := p
      obtain ⟨hno, hdrest⟩ := distinctKV_head k v rest hdist
      have hk : lookupE es (identifier k) = Option.none := habs (k, v) (List.mem_cons_self _ _)
      simp only [convKV]
      rw [insertEntry_absent es (identifier k) _ hk]
      rw [ih (es ++ [(identifier k, if isMapping v then conv v else v)]) ?_ hdrest]
      · simp
      · intro q hq
        rw [lookupE_append]
        rw [habs q (List.mem_cons_of_mem _ hq)]
        have hne : identifier k ≠ identifier q.1 := Ne.symm (hno q hq)
        simp [lookupE, hne]

theorem convSV_map (items : List (String × Val)) :
    ∀ (es : List (String × Val)),
      (∀ p ∈ items, lookupE es (identStr p.1) = Option.none) →
      distinctSV items = true →
      convSV es items =
        es ++ items.map (fun p => (identStr p.1, if isMapping p.2 then conv p.2 else p.2)) := by
  induction items with
  | nil => intro es _ _; simp [convSV]
  | cons p rest ih =>
      intro es habs hdist
      obtain ⟨k, v⟩ := p
      obtain ⟨hno, hdrest⟩ := distinctSV_head k v rest hdist
      have hk : lookupE es (identStr k) = Option.none := habs (k, v) (List.mem_cons_self _ _)
      simp only [convSV]
      rw [insertEntry_absent es (identStr k) _ hk]
      rw [ih (es ++ [(identStr k, if isMapping v then conv v else v)]) ?_ hdrest]
      · simp
      · intro q hq
        rw [lookupE_append]
        rw [habs q (List.mem_cons_of_mem _ hq)]
        have hne : identStr k ≠ identStr q.1 := Ne.symm (hno q hq)
        simp [lookupE, hne]

theorem distinct_map_KV (items : List (Key × Val)) (g : Val → Val)
    (hdist : distinctKV items = true) :
    distinctSV (items.map (fun p => (identifier p.1, g p.2))) = true := by
  induction items with
  | nil => rfl
  | cons p rest ih =>
      obtain ⟨k, v⟩ := p
      obtain ⟨hno, hdrest⟩ := distinctKV_head k v rest hdist
      simp only [List.map_cons, distinctSV, Bool.and_eq_true, Bool.not_eq_true',
        List.any_eq_false]
      refine ⟨?_, ih hdrest⟩
      intro q hq
      obtain ⟨r, hr, hrq⟩ := List.mem_map.mp hq
      rw [← hrq]
      have h1 : identStr (identifier r.1) = identifier r.1 := identifier_idem r.1
      have h2 : identStr (identifier k) = identifier k := identifier_idem k
      simp only [h1, h2]
      simpa using hno r hr

theorem sdKV_cons_mapping_present (es : List (String × Val)) (k : Key) (v : Val)
    (we wa : List (String × Val)) (rest : List (Key × Val)) (hm : isMapping v = true)
    (hl : lookupE es (identifier k) = some (.vConfig we wa)) :
    sdKV es ((k, v) :: rest) =
      (match sdVal we v with
       | .ok we2 => sdKV (insertEntry es (identifier k) (.vConfig we2 wa)) rest
       | .error e => .error e) := by
  simp only [sdKV]
  rw [if_pos hm, hl]

theorem sdKV_cons_mapping_absent (es : List (String × Val)) (k : Key) (v : Val)
    (rest : List (Key × Val)) (hm : isMapping v = true)
    (hl : lookupE es (identifier k) = Option.none) :
    sdKV es ((k, v) :: rest) =
      sdKV (insertEntry es (identifier k) (conv (conv v))) rest := by
  simp only [sdKV]
  rw [if_pos hm, hl]
  rw [convKV_single]
  rw [if_pos (isMapping_conv v hm)]
  rw [identifier_str_identifier k]

theorem sdKV_cons_scalar (es : List (String × Val)) (k : Key) (v : Val)
    (rest : List (Key × Val)) (hm : isMapping v = false) :
    sdKV es ((k, v) :: rest) =
      (match lookupE es (identifier k) with
       | Option.none => sdKV (insertEntry es (identifier k) v) rest
       | some _ => sdKV es rest) := by
  simp only [sdKV]
  rw [if_neg (by simp [hm])]
  cases hl : lookupE es (identifier k) with
  | none =>
      rw [convKV_single]
      rw [if_neg (by simp [hm])]
      rw [identifier_str_identifier k]
  | some w => rfl

theorem sdSV_cons_mapping_present (es : List (String × Val)) (k : String) (v : Val)
    (we wa : List (String × Val)) (rest : List (String × Val)) (hm : isMapping v = true)
    (hl : lookupE es (identStr k) = some (.vConfig we wa)) :
    sdSV es ((k, v) :: rest) =
      (match sdVal we v with
       | .ok we2 => sdSV (insertEntry es (identStr k) (.vConfig we2 wa)) rest
       | .error e => .error e) := by
  simp only [sdSV]
  rw [if_pos hm, hl]

theorem sdSV_cons_mapping_absent (es : List (String × Val)) (k : String) (v : Val)
    (rest : List (String × Val)) (hm : isMapping v = true)
    (hl : lookupE es (identStr k) = Option.none) :
    sdSV es ((k, v) :: rest) =
      sdSV (insertEntry es (identStr k) (conv (conv v))) rest := by
  simp only [sdSV]
  rw [if_pos hm, hl]
  rw [convKV_single]
  rw [if_pos (isMapping_conv v hm)]
  rw [identifier_str_identStr k]

theorem sdSV_cons_scalar (es : List (String × Val)) (k : String) (v : Val)
    (rest : List (String × Val)) (hm : isMapping v = false) :
    sdSV es ((k, v) :: rest) =
      (match lookupE es (identStr k) with
       | Option.none => sdSV (insertEntry es (identStr k) v) rest
       | some _ => sdSV es rest) := by
  simp only [sdSV]
  rw [if_neg (by simp [hm])]
  cases hl : lookupE es (identStr k) with
  | none =>
      rw [convKV_single]
      rw [if_neg (by simp [hm])]
      rw [identifier_str_identStr k]
  | some w => rfl

/-- The entries of the double conversion of a collision-free mapping are
saturated with respect to that mapping. -/
theorem conv2_sat : ∀ (N : Nat) (v : Val), sizeOf v < N → ncV v = true → isMapping v = true →
    ∃ es, conv (conv v) = .vConfig es [] ∧ SatV es v := by
  intro N
  induction N with
  | zero => intro v h; omega
  | succ N ih =>
      intro v hv hnc hm
      cases v with
      | vInt a => simp [isMapping] at hm
      | vStr a => simp [isMapping] at hm
      | vBool a => simp [isMapping] at hm
      | vNone => simp [isMapping] at hm
      | vDict items =>
          simp only [ncV, Bool.and_eq_true] at hnc
          obtain ⟨hdist, hncl⟩ := hnc
          have hncl2 : ∀ p ∈ items, ncV p.2 = true := by
            intro p hp
            clear hm hv hdist
            induction items with
            | nil => simp at hp
            | cons r rest3 ih3 =>
                simp only [ncKV, Bool.and_eq_true] at hncl
                rcases List.mem_cons.mp hp with heq | h3
                · rw [heq]
                  exact hncl.1
                · exact ih3 hncl.2 h3
          have h1 : conv (.vDict items) =
              .vConfig (items.map (fun p =>
                (identifier p.1, if isMapping p.2 then conv p.2 else p.2))) [] := by
            show Val.vConfig (convKV [] items) [] = _
            rw [convKV_map items [] (by intro p _; rfl) hdist]
            rfl
          have hdist2 : distinctSV (items.map (fun p =>
              (identifier p.1, if isMapping p.2 then conv p.2 else p.2))) = true :=
            distinct_map_KV items (fun w => if isMapping w then conv w else w) hdist
          have h2 : conv (conv (.vDict items)) =
              .vConfig (items.map (fun p =>
                (identifier p.1,
                  (fun w => if isMapping w then conv w else w)
                    ((fun w => if isMapping w then conv w else w) p.2)))) [] := by
            rw [h1]
            show Val.vConfig (convSV [] _) [] = _
            rw [convSV_map _ [] (by intro p _; rfl) hdist2]
            rw [List.nil_append, List.map_map]
            have hfun : ∀ p : Key × Val,
                ((fun q : String × Val =>
                    (identStr q.1, if isMapping q.2 then conv q.2 else q.2)) ∘
                  (fun q : Key × Val =>
                    (identifier q.1, if isMapping q.2 then conv q.2 else q.2))) p =
                (identifier p.1,
                  (fun w => if isMapping w then conv w else w)
                    ((fun w => if isMapping w then conv w else w) p.2)) := by
              intro p
              simp only [Function.comp_apply]
              rw [identifier_idem p.1]
            rw [List.map_congr_left fun p _ => hfun p]
          refine ⟨_, h2, ?_⟩
          show SatKV _ items
          have hmem : ∀ items2 : List (Key × Val), (∀ p ∈ items2, p ∈ items) →
              SatKV (items.map (fun p =>
                (identifier p.1,
                  (fun w => if isMapping w then conv w else w)
                    ((fun w => if isMapping w then conv w else w) p.2)))) items2 := by
            intro items2
            induction items2 with
            | nil => intro _; trivial
            | cons q rest2 ih2 =>
                intro hsub
                obtain ⟨k, v2⟩ := q
                have hq : (k, v2) ∈ items := hsub _ (List.mem_cons_self _ _)
                refine ⟨?_, ih2 fun p hp => hsub p (List.mem_cons_of_mem _ hp)⟩
                have hlk := lookupE_map_distinctKV items
                  (fun w => (fun w => if isMapping w then conv w else w)
                    ((fun w => if isMapping w then conv w else w) w)) k v2 hdist hq
                by_cases hm2 : isMapping v2 = true
                · rw [if_pos hm2]
                  have hv2 : sizeOf v2 < N := by
                    have ha := mem_sizeOf_KV items k v2 hq
                    simp only [Val.vDict.sizeOf_spec] at hv
                    omega
                  obtain ⟨es2, hcc, hsat2⟩ := ih v2 hv2 (hncl2 (k, v2) hq) hm2
                  refine ⟨es2, [], ?_, hsat2⟩
                  rw [hlk]
                  simp only [hm2, if_true, isMapping_conv v2 hm2, hcc]
                · rw [if_neg hm2]
                  rw [hlk]
                  simp only [hm2, Bool.false_eq_true, if_false]
                  rfl
          exact hmem items fun p hp => hp
      | vConfig ces cas =>
          simp only [ncV, Bool.and_eq_true] at hnc
          obtain ⟨hdist, hncl⟩ := hnc
          have hncl2 : ∀ p ∈ ces, ncV p.2 = true := by
            intro p hp
            clear hm hv hdist
            induction ces with
            | nil => simp at hp
            | cons r rest3 ih3 =>
                simp only [ncSV, Bool.and_eq_true] at hncl
                rcases List.mem_cons.mp hp with heq | h3
                · rw [heq]
                  exact hncl.1
                · exact ih3 hncl.2 h3
          have h1 : conv (.vConfig ces cas) =
              .vConfig (ces.map (fun p =>
                (identStr p.1, if isMapping p.2 then conv p.2 else p.2))) [] := by
            show Val.vConfig (convSV [] ces) [] = _
            rw [convSV_map ces [] (by intro p _; rfl) hdist]
            rfl
          have hdist2 : distinctSV (ces.map (fun p =>
              (identStr p.1, if isMapping p.2 then conv p.2 else p.2))) = true := by
            have h3 : ∀ (l : List (String × Val)) (g : Val → Val), distinctSV l = true →
                distinctSV (l.map fun p => (identStr p.1, g p.2)) = true := by
              intro l g hd
              induction l with
              | nil => rfl
              | cons p rest3 ih3 =>
                  obtain ⟨k0, v0⟩ := p
                  obtain ⟨hno, hdr⟩ := distinctSV_head k0 v0 rest3 hd
                  simp only [List.map_cons, distinctSV, Bool.and_eq_true,
                    Bool.not_eq_true', List.any_eq_false]
                  refine ⟨?_, ih3 hdr⟩
                  intro q hq
                  obtain ⟨r, hr, hrq⟩ := List.mem_map.mp hq
                  rw [← hrq]
                  have e1 : identStr (identStr r.1) = identStr r.1 := identStr_idem r.1
                  have e2 : identStr (identStr k0) = identStr k0 := identStr_idem k0
                  simp only [e1, e2]
                  simpa using hno r hr
            exact h3 ces (fun w => if isMapping w then conv w else w) hdist
          have h2 : conv (conv (.vConfig ces cas)) =
              .vConfig (ces.map (fun p =>
                (identStr p.1,
                  (fun w => if isMapping w then conv w else w)
                    ((fun w => if isMapping w then conv w else w) p.2)))) [] := by
            rw [h1]
            show Val.vConfig (convSV [] _) [] = _
            rw [convSV_map _ [] (by intro p _; rfl) hdist2]
            rw [List.nil_append, List.map_map]
            have hfun : ∀ p : String × Val,
                ((fun q : String × Val =>
                    (identStr q.1, if isMapping q.2 then conv q.2 else q.2)) ∘
                  (fun q : String × Val =>
                    (identStr q.1, if isMapping q.2 then conv q.2 else q.2))) p =
                (identStr p.1,
                  (fun w => if isMapping w then conv w else w)
                    ((fun w => if isMapping w then conv w else w) p.2)) := by
              intro p
              simp only [Function.comp_apply]
              rw [identStr_idem p.1]
            rw [List.map_congr_left fun p _ => hfun p]
          refine ⟨_, h2, ?_⟩
          show SatSV _ ces
          have hmem : ∀ items2 : List (String × Val), (∀ p ∈ items2, p ∈ ces) →
              SatSV (ces.map (fun p =>
                (identStr p.1,
                  (fun w => if isMapping w then conv w else w)
                    ((fun w => if isMapping w then conv w else w) p.2)))) items2 := by
            intro items2
            induction items2 with
            | nil => intro _; trivial
            | cons q rest2 ih2 =>
                intro hsub
                obtain ⟨k, v2⟩ := q
                have hq : (k, v2) ∈ ces := hsub _ (List.mem_cons_self _ _)
                refine ⟨?_, ih2 fun p hp => hsub p (List.mem_cons_of_mem _ hp)⟩
                have hlk := lookupE_map_distinctSV ces
                  (fun w => (fun w => if isMapping w then conv w else w)
                    ((fun w => if isMapping w then conv w else w) w)) k v2 hdist hq
                by_cases hm2 : isMapping v2 = true
                · rw [if_pos hm2]
                  have hv2 : sizeOf v2 < N := by
                    have ha := mem_sizeOf_SV ces k v2 hq
                    simp only [Val.vConfig.sizeOf_spec] at hv
                    omega
                  obtain ⟨es2, hcc, hsat2⟩ := ih v2 hv2 (hncl2 (k, v2) hq) hm2
                  refine ⟨es2, [], ?_, hsat2⟩
                  rw [hlk]
                  simp only [hm2, if_true, isMapping_conv v2 hm2, hcc]
                · rw [if_neg hm2]
                  rw [hlk]
                  simp only [hm2, Bool.false_eq_true, if_false]
                  rfl
          exact hmem ces fun p hp => hp

theorem sdKV_sp (d : List (Key × Val)) (es es2 : List (String × Val))
    (h : sdKV es d = .ok es2) : SP es es2 :=
  (sd_sp_main (sizeOf d + 1)).1 d es es2 (by omega) h

theorem sdSV_sp (d : List (String × Val)) (es es2 : List (String × Val))
    (h : sdSV es d = .ok es2) : SP es es2 :=
  (sd_sp_main (sizeOf d + 1)).2 d es es2 (by omega) h

theorem scalar_not_config (v : Val) (h : isMapping v = false) : isConfigV v = false := by
  cases v <;> simp [isMapping, isConfigV] at h ⊢

theorem sp_presence (es es2 : List (String × Val)) (n : String) (hsp : SP es es2)
    (hs : (lookupE es n).isSome = true) : (lookupE es2 n).isSome = true := by
  cases hl : lookupE es n with
  | none => rw [hl] at hs; simp at hs
  | some w =>
      rw [sp_unfold] at hsp
      by_cases hc : isConfigV w = true
      · cases w with
        | vConfig we wa =>
            obtain ⟨we2, hl2, _⟩ := hsp.2 n we wa hl
            rw [hl2]
            rfl
        | vInt a => simp [isConfigV] at hc
        | vStr a => simp [isConfigV] at hc
        | vBool a => simp [isConfigV] at hc
        | vNone => simp [isConfigV] at hc
        | vDict a => simp [isConfigV] at hc
      · have hc2 : isConfigV w = false := by simpa using hc
        rw [hsp.1 n w hl hc2]
        rfl

theorem sat_fix_main : ∀ (N : Nat),
    (∀ (d : List (Key × Val)) (es : List (String × Val)), sizeOf d < N →
        SatKV es d → sdKV es d = .ok es) ∧
    (∀ (d : List (String × Val)) (es : List (String × Val)), sizeOf d < N →
        SatSV es d → sdSV es d = .ok es) := by
  intro N
  induction N with
  | zero => exact ⟨fun d es hd => by omega, fun d es hd => by omega⟩
  | succ N ih =>
      obtain ⟨ihK, ihS⟩ := ih
      have hval : ∀ (v : Val) (we : List (String × Val)), sizeOf v < N →
          SatV we v → sdVal we v = .ok we := by
        intro v we hv hsat
        cases v with
        | vDict items =>
            have hs : sizeOf items < N := by
              simp only [Val.vDict.sizeOf_spec] at hv
              omega
            exact ihK items we hs hsat
        | vConfig ces cas =>
            have hs : sizeOf ces < N := by
              simp only [Val.vConfig.sizeOf_spec] at hv
              omega
            exact ihS ces we hs hsat
        | vInt a => simp only [SatV] at hsat
        | vStr a => simp only [SatV] at hsat
        | vBool a => simp only [SatV] at hsat
        | vNone => simp only [SatV] at hsat
      constructor
      · intro d es hd hsat
        cases d with
        | nil => rfl
        | cons p rest =>
            obtain ⟨k, v⟩ := p
            have hrest : sizeOf rest < N := by
              simp only [List.cons.sizeOf_spec] at hd
              omega
            have hv : sizeOf v < N := by
              simp only [List.cons.sizeOf_spec, Prod.mk.sizeOf_spec] at hd
              omega
            simp only [SatKV] at hsat
            obtain ⟨hhead, hsrest⟩ := hsat
            by_cases hm : isMapping v = true
            · rw [if_pos hm] at hhead
              obtain ⟨we, wa, hl, hsv⟩ := hhead
              rw [sdKV_cons_mapping_present es k v we wa rest hm hl]
              rw [hval v we hv hsv]
              show sdKV (insertEntry es (identifier k) (Val.vConfig we wa)) rest = Except.ok es
              rw [insertEntry_self es (identifier k) _ hl]
              exact ihK rest es hrest hsrest
            · have hm2 : isMapping v = false := by simpa using hm
              rw [if_neg hm] at hhead
              rw [sdKV_cons_scalar es k v rest hm2]
              cases hl : lookupE es (identifier k) with
              | none => rw [hl] at hhead; simp at hhead
              | some w =>
                  show sdKV es rest = Except.ok es
                  exact ihK rest es hrest hsrest
      · intro d es hd hsat
        cases d with
        | nil => rfl
        | cons p rest =>
            obtain ⟨k, v⟩ := p
            have hrest : sizeOf rest < N := by
              simp only [List.cons.sizeOf_spec] at hd
              omega
            have hv : sizeOf v < N := by
              simp only [List.cons.sizeOf_spec, Prod.mk.sizeOf_spec] at hd
              omega
            simp only [SatSV] at hsat
            obtain ⟨hhead, hsrest⟩ := hsat
            by_cases hm : isMapping v = true
            · rw [if_pos hm] at hhead
              obtain ⟨we, wa, hl, hsv⟩ := hhead
              rw [sdSV_cons_mapping_present es k v we wa rest hm hl]
              rw [hval v we hv hsv]
              show sdSV (insertEntry es (identStr k) (Val.vConfig we wa)) rest = Except.ok es
              rw [insertEntry_self es (identStr k) _ hl]
              exact ihS rest es hrest hsrest
            · have hm2 : isMapping v = false := by simpa using hm
              rw [if_neg hm] at hhead
              rw [sdSV_cons_scalar es k v rest hm2]
              cases hl : lookupE es (identStr k) with
              | none => rw [hl] at hhead; simp at hhead
              | some w =>
                  show sdSV es rest = Except.ok es
                  exact ihS rest es hrest hsrest

theorem sat_sp_main : ∀ (N : Nat),
    (∀ (d : List (Key × Val)) (es es2 : List (String × Val)), sizeOf d < N →
        SP es es2 → SatKV es d → SatKV es2 d) ∧
    (∀ (d : List (String × Val)) (es es2 : List (String × Val)), sizeOf d < N →
        SP es es2 → SatSV es d → SatSV es2 d) := by
  intro N
  induction N with
  | zero => exact ⟨fun d es es2 hd => by omega, fun d es es2 hd => by omega⟩
  | succ N ih =>
      obtain ⟨ihK, ihS⟩ := ih
      have hval : ∀ (v : Val) (we we2 : List (String × Val)), sizeOf v < N →
          SP we we2 → SatV we v → SatV we2 v := by
        intro v we we2 hv hsp hsat
        cases v with
        | vDict items =>
            have hs : sizeOf items < N := by
              simp only [Val.vDict.sizeOf_spec] at hv
              omega
            exact ihK items we we2 hs hsp hsat
        | vConfig ces cas =>
            have hs : sizeOf ces < N := by
              simp only [Val.vConfig.sizeOf_spec] at hv
              omega
            exact ihS ces we we2 hs hsp hsat
        | vInt a => simp only [SatV] at hsat
        | vStr a => simp only [SatV] at hsat
        | vBool a => simp only [SatV] at hsat
        | vNone => simp only [SatV] at hsat
      have hpresence := sp_presence
      constructor
      · intro d es es2 hd hsp hsat
        cases d with
        | nil => trivial
        | cons p rest =>
            obtain ⟨k, v⟩ := p
            have hrest : sizeOf rest < N := by
              simp only [List.cons.sizeOf_spec] at hd
              omega
            have hv : sizeOf v < N := by
              simp only [List.cons.sizeOf_spec, Prod.mk.sizeOf_spec] at hd
              omega
            simp only [SatKV] at hsat ⊢
            obtain ⟨hhead, hsrest⟩ := hsat
            refine ⟨?_, ihK rest es es2 hrest hsp hsrest⟩
            by_cases hm : isMapping v = true
            · rw [if_pos hm] at hhead ⊢
              obtain ⟨we, wa, hl, hsv⟩ := hhead
              obtain ⟨we2, hl2, hsp2⟩ := ((sp_unfold es es2).mp hsp).2 (identifier k) we wa hl
              exact ⟨we2, wa, hl2, hval v we we2 hv hsp2 hsv⟩
            · rw [if_neg hm] at hhead ⊢
              exact hpresence es es2 (identifier k) hsp hhead
      · intro d es es2 hd hsp hsat
        cases d with
        | nil => trivial
        | cons p rest =>
            obtain ⟨k, v⟩ := p
            have hrest : sizeOf rest < N := by
              simp only [List.cons.sizeOf_spec] at hd
              omega
            have hv : sizeOf v < N := by
              simp only [List.cons.sizeOf_spec, Prod.mk.sizeOf_spec] at hd
              omega
            simp only [SatSV] at hsat ⊢
            obtain ⟨hhead, hsrest⟩ := hsat
            refine ⟨?_, ihS rest es es2 hrest hsp hsrest⟩
            by_cases hm : isMapping v = true
            · rw [if_pos hm] at hhead ⊢
              obtain ⟨we, wa, hl, hsv⟩ := hhead
              obtain ⟨we2, hl2, hsp2⟩ := ((sp_unfold es es2).mp hsp).2 (identStr k) we wa hl
              exact ⟨we2, wa, hl2, hval v we we2 hv hsp2 hsv⟩
            · rw [if_neg hm] at hhead ⊢
              exact hpresence es es2 (identStr k) hsp hhead

theorem satV_sp (v : Val) (we we2 : List (String × Val))
    (hsp : SP we we2) (hsat : SatV we v) : SatV we2 v := by
  cases v with
  | vDict items => exact (sat_sp_main (sizeOf items + 1)).1 items we we2 (by omega) hsp hsat
  | vConfig ces cas => exact (sat_sp_main (sizeOf ces + 1)).2 ces we we2 (by omega) hsp hsat
  | vInt a => simp only [SatV] at hsat
  | vStr a => simp only [SatV] at hsat
  | vBool a => simp only [SatV] at hsat
  | vNone => simp only [SatV] at hsat

theorem sd_sat_main : ∀ (N : Nat),
    (∀ (d : List (Key × Val)) (es es2 : List (String × Val)), sizeOf d < N →
        ncKV d = true → sdKV es d = .ok es2 → SatKV es2 d) ∧
    (∀ (d : List (String × Val)) (es es2 : List (String × Val)), sizeOf d < N →
        ncSV d = true → sdSV es d = .ok es2 → SatSV es2 d) := by
  intro N
  induction N with
  | zero => exact ⟨fun d es es2 hd => by omega, fun d es es2 hd => by omega⟩
  | succ N ih =>
      obtain ⟨ihK, ihS⟩ := ih
      have hval : ∀ (v : Val) (we we2 : List (String × Val)), sizeOf v < N →
          ncV v = true → sdVal we v = .ok we2 → SatV we2 v := by
        intro v we we2 hv hnc h
        cases v with
        | vDict items =>
            have hs : sizeOf items < N := by
              simp only [Val.vDict.sizeOf_spec] at hv
              omega
            simp only [ncV, Bool.and_eq_true] at hnc
            exact ihK items we we2 hs hnc.2 h
        | vConfig ces cas =>
            have hs : sizeOf ces < N := by
              simp only [Val.vConfig.sizeOf_spec] at hv
              omega
            simp only [ncV, Bool.and_eq_true] at hnc
            exact ihS ces we we2 hs hnc.2 h
        | vInt a => simp [sdVal] at h
        | vStr a => simp [sdVal] at h
        | vBool a => simp [sdVal] at h
        | vNone => simp [sdVal] at h
      constructor
      · intro d es es2 hd hnc h
        cases d with
        | nil => trivial
        | cons p rest =>
            obtain ⟨k, v⟩ := p
            have hrest : sizeOf rest < N := by
              simp only [List.cons.sizeOf_spec] at hd
              omega
            have hv : sizeOf v < N := by
              simp only [List.cons.sizeOf_spec, Prod.mk.sizeOf_spec] at hd
              omega
            simp only [ncKV, Bool.and_eq_true] at hnc
            obtain ⟨hncv, hncr⟩ := hnc
            simp only [SatKV]
            by_cases hm : isMapping v = true
            · cases hl : lookupE es (identifier k) with
              | none =>
                  rw [sdKV_cons_mapping_absent es k v rest hm hl] at h
                  obtain ⟨ce, hcc, hsatce⟩ :=
                    conv2_sat (sizeOf v + 1) v (by omega) hncv hm
                  rw [hcc] at h
                  have hl1 : lookupE (insertEntry es (identifier k) (Val.vConfig ce []))
                      (identifier k) = some (.vConfig ce []) := by
                    rw [lookupE_insert]
                    simp
                  have hsp := sdKV_sp rest _ _ h
                  obtain ⟨ce2, hl2, hsp2⟩ := ((sp_unfold _ _).mp hsp).2 (identifier k) ce [] hl1
                  rw [if_pos hm]
                  exact ⟨⟨ce2, [], hl2, satV_sp v ce ce2 hsp2 hsatce⟩,
                    ihK rest _ es2 hrest hncr h⟩
              | some w =>
                  cases w with
                  | vConfig we wa =>
                      rw [sdKV_cons_mapping_present es k v we wa rest hm hl] at h
                      split at h
                      · next we2 hsd =>
                          have hsatv := hval v we we2 hv hncv hsd
                          have hl1 : lookupE (insertEntry es (identifier k)
                              (Val.vConfig we2 wa)) (identifier k) =
                              some (.vConfig we2 wa) := by
                            rw [lookupE_insert]
                            simp
                          have hsp := sdKV_sp rest _ _ h
                          obtain ⟨we3, hl3, hsp3⟩ :=
                            ((sp_unfold _ _).mp hsp).2 (identifier k) we2 wa hl1
                          rw [if_pos hm]
                          exact ⟨⟨we3, wa, hl3, satV_sp v we2 we3 hsp3 hsatv⟩,
                            ihK rest _ es2 hrest hncr h⟩
                      · exact absurd h (by simp)
                  | vInt a =>
                      simp only [sdKV] at h
                      rw [if_pos hm, hl] at h
                      exact Except.noConfusion h
                  | vStr a =>
                      simp only [sdKV] at h
                      rw [if_pos hm, hl] at h
                      exact Except.noConfusion h
                  | vBool a =>
                      simp only [sdKV] at h
                      rw [if_pos hm, hl] at h
                      exact Except.noConfusion h
                  | vNone =>
                      simp only [sdKV] at h
                      rw [if_pos hm, hl] at h
                      exact Except.noConfusion h
                  | vDict a =>
                      simp only [sdKV] at h
                      rw [if_pos hm, hl] at h
                      exact Except.noConfusion h
            · have hm2 : isMapping v = false := by simpa using hm
              rw [sdKV_cons_scalar es k v rest hm2] at h
              rw [if_neg hm]
              split at h
              · next hl =>
                  have hl1 : lookupE (insertEntry es (identifier k) v) (identifier k) =
                      some v := by
                    rw [lookupE_insert]
                    simp
                  have hsp := sdKV_sp rest _ _ h
                  have hl2 := ((sp_unfold _ _).mp hsp).1 (identifier k) v hl1
                    (scalar_not_config v hm2)
                  refine ⟨by rw [hl2]; rfl, ihK rest _ es2 hrest hncr h⟩
              · next w hl =>
                  have hsp := sdKV_sp rest _ _ h
                  refine ⟨sp_presence es es2 (identifier k) hsp (by rw [hl]; rfl),
                    ihK rest _ es2 hrest hncr h⟩
      · intro d es es2 hd hnc h
        cases d with
        | nil => trivial
        | cons p rest =>
            obtain ⟨k, v⟩ := p
            have hrest : sizeOf rest < N := by
              simp only [List.cons.sizeOf_spec] at hd
              omega
            have hv : sizeOf v < N := by
              simp only [List.cons.sizeOf_spec, Prod.mk.sizeOf_spec] at hd
              omega
            simp only [ncSV, Bool.and_eq_true] at hnc
            obtain ⟨hncv, hncr⟩ := hnc
            simp only [SatSV]
            by_cases hm : isMapping v = true
            · cases hl : lookupE es (identStr k) with
              | none =>
                  rw [sdSV_cons_mapping_absent es k v rest hm hl] at h
                  obtain ⟨ce, hcc, hsatce⟩ :=
                    conv2_sat (sizeOf v + 1) v (by omega) hncv hm
                  rw [hcc] at h
                  have hl1 : lookupE (insertEntry es (identStr k) (Val.vConfig ce []))
                      (identStr k) = some (.vConfig ce []) := by
                    rw [lookupE_insert]
                    simp
                  have hsp := sdSV_sp rest _ _ h
                  obtain ⟨ce2, hl2, hsp2⟩ := ((sp_unfold _ _).mp hsp).2 (identStr k) ce [] hl1
                  rw [if_pos hm]
                  exact ⟨⟨ce2, [], hl2, satV_sp v ce ce2 hsp2 hsatce⟩,
                    ihS rest _ es2 hrest hncr h⟩
              | some w =>
                  cases w with
                  | vConfig we wa =>
                      rw [sdSV_cons_mapping_present es k v we wa rest hm hl] at h
                      split at h
                      · next we2 hsd =>
                          have hsatv := hval v we we2 hv hncv hsd
                          have hl1 : lookupE (insertEntry es (identStr k)
                              (Val.vConfig we2 wa)) (identStr k) =
                              some (.vConfig we2 wa) := by
                            rw [lookupE_insert]
                            simp
                          have hsp := sdSV_sp rest _ _ h
                          obtain ⟨we3, hl3, hsp3⟩ :=
                            ((sp_unfold _ _).mp hsp).2 (identStr k) we2 wa hl1
                          rw [if_pos hm]
                          exact ⟨⟨we3, wa, hl3, satV_sp v we2 we3 hsp3 hsatv⟩,
                            ihS rest _ es2 hrest hncr h⟩
                      · exact absurd h (by simp)
                  | vInt a =>
                      simp only [sdSV] at h
                      rw [if_pos hm, hl] at h
                      exact Except.noConfusion h
                  | vStr a =>
                      simp only [sdSV] at h
                      rw [if_pos hm, hl] at h
                      exact Except.noConfusion h
                  | vBool a =>
                      simp only [sdSV] at h
                      rw [if_pos hm, hl] at h
                      exact Except.noConfusion h
                  | vNone =>
                      simp only [sdSV] at h
                      rw [if_pos hm, hl] at h
                      exact Except.noConfusion h
                  | vDict a =>
                      simp only [sdSV] at h
                      rw [if_pos hm, hl] at h
                      exact Except.noConfusion h
            · have hm2 : isMapping v = false := by simpa using hm
              rw [sdSV_cons_scalar es k v rest hm2] at h
              rw [if_neg hm]
              split at h
              · next hl =>
                  have hl1 : lookupE (insertEntry es (identStr k) v) (identStr k) =
                      some v := by
                    rw [lookupE_insert]
                    simp
                  have hsp := sdSV_sp rest _ _ h
                  have hl2 := ((sp_unfold _ _).mp hsp).1 (identStr k) v hl1
                    (scalar_not_config v hm2)
                  refine ⟨by rw [hl2]; rfl, ihS rest _ es2 hrest hncr h⟩
              · next w hl =>
                  have hsp := sdSV_sp rest _ _ h
                  refine ⟨sp_presence es es2 (identStr k) hsp (by rw [hl]; rfl),
                    ihS rest _ es2 hrest hncr h⟩

theorem satV_fix (v : Val) (we : List (String × Val)) (hsat : SatV we v) :
    sdVal we v = .ok we := by
  cases v with
  | vDict items => exact (sat_fix_main (sizeOf items + 1)).1 items we (by omega) hsat
  | vConfig ces cas => exact (sat_fix_main (sizeOf ces + 1)).2 ces we (by omega) hsat
  | vInt a => simp only [SatV] at hsat
  | vStr a => simp only [SatV] at hsat
  | vBool a => simp only [SatV] at hsat
  | vNone => simp only [SatV] at hsat

theorem sdVal_sat (v : Val) (we we2 : List (String × Val)) (hnc : ncV v = true)
    (h : sdVal we v = .ok we2) : SatV we2 v := by
  cases v with
  | vDict items =>
      simp only [ncV, Bool.and_eq_true] at hnc
      exact (sd_sat_main (sizeOf items + 1)).1 items we we2 (by omega) hnc.2 h
  | vConfig ces cas =>
      simp only [ncV, Bool.and_eq_true] at hnc
      exact (sd_sat_main (sizeOf ces + 1)).2 ces we we2 (by omega) hnc.2 h
  | vInt a => simp [sdVal] at h
  | vStr a => simp [sdVal] at h
  | vBool a => simp [sdVal] at h
  | vNone => simp [sdVal] at h

/-- C9, amended: set_defaults is idempotent for defaults mappings in which no
two keys of any level share a normalized form; applying it a second time to
the resulting store succeeds and returns that store unchanged.  Without the
collision-freedom proviso a second application can raise AttributeError even
though the first succeeded (see the counterexample). -/
theorem c9_set_defaults_idem (c : Cfg) (d : Val) (c2 : Cfg)
    (hnc : ncV d = true) (h : setDefaultsCfg c d = .ok c2) :
    setDefaultsCfg c2 d = .ok c2 := by
  unfold setDefaultsCfg at h ⊢
  cases hv : sdVal c.entries d with
  | error e =>
      rw [hv] at h
      simp [Except.map] at h
  | ok es2 =>
      rw [hv] at h
      simp only [Except.map] at h
      injection h with h2
      have hsat := sdVal_sat d c.entries es2 hnc hv
      have hfix := satV_fix d es2 hsat
      rw [← h2]
      show Except.map _ (sdVal es2 d) = _
      rw [hfix]
      rfl

/-- Witness for C9 at concrete inputs: collision-free defaults with a nested
mapping are idempotent on the empty store. -/
theorem c9_set_defaults_idem_witness :
    setDefaultsCfg
        ⟨[("a", Val.vInt 1), ("b", Val.vConfig [("c", Val.vInt 2)] [])], []⟩
        (.vDict [(.str "a", .vInt 1), (.str "b", .vDict [(.str "c", .vInt 2)])]) =
      .ok ⟨[("a", Val.vInt 1), ("b", Val.vConfig [("c", Val.vInt 2)] [])], []⟩ :=
  c9_set_defaults_idem ⟨[], []⟩
    (.vDict [(.str "a", .vInt 1), (.str "b", .vDict [(.str "c", .vInt 2)])])
    ⟨[("a", Val.vInt 1), ("b", Val.vConfig [("c", Val.vInt 2)] [])], []⟩
    (by decide) rfl

/-- Counterexample for C9 as stated: with defaults whose nested keys a.b and
a/b collide to a_b, the first application succeeds (the conversion stores the
later scalar 5 under a_b), but the second application recurses into the
nested mapping, finds the scalar 5 where it expects a Config, and raises
AttributeError, so applying twice does not yield the store of applying once. -/
theorem c9_collision_cex :
    setDefaultsCfg ⟨[], []⟩
        (.vDict [(.str "k", .vDict [(.str "a.b", .vDict [(.str "x", .vInt 1)]),
          (.str "a/b", .vInt 5)])]) =
      .ok ⟨[("k", .vConfig [("a_b", .vInt 5)] [])], []⟩ ∧
    setDefaultsCfg ⟨[("k", .vConfig [("a_b", .vInt 5)] [])], []⟩
        (.vDict [(.str "k", .vDict [(.str "a.b", .vDict [(.str "x", .vInt 1)]),
          (.str "a/b", .vInt 5)])]) =
      .error .attributeError ∧
    ∀ c2 : Cfg, ¬ setDefaultsCfg ⟨[("k", .vConfig [("a_b", .vInt 5)] [])], []⟩
        (.vDict [(.str "k", .vDict [(.str "a.b", .vDict [(.str "x", .vInt 1)]),
          (.str "a/b", .vInt 5)])]) = .ok c2 := by
  refine ⟨rfl, rfl, ?_⟩
  intro c2 h
  exact Except.noConfusion h

/-! Lemmas and claims about the error-message resolver. -/

theorem getAttrVal_config_present (u : List (String × Val)) (n : String) (w : Val)
    (h : lookupE u n = some w) : getAttrVal (.vConfig u []) n = .ok w := by
  simp only [getAttrVal]
  rw [getAttr_eq]
  show (match getItem u (.str n) with
        | .ok v => Except.ok v
        | .error _ => Except.error PyErr.attributeError) = _
  rw [getItem_str, h]

/-- C1, amended: when the override entry for a field is a bare string, that
string is used as the message body for both situations: a missing report for
such a field also produces prefix, bare string, suffix, not the inherited
general missing text. -/
theorem c1_bare_string_override (em : Cfg) (u : List (String × Val))
    (name : Key) (p s sf : String)
    (hu : getAttr em "_" = .ok (.vConfig u []))
    (hp : lookupE u "prefix" = some (.vStr p))
    (hsf : lookupE u "suffix" = some (.vStr sf))
    (hname : rawGetK em.entries name = some (.vStr s)) :
    ∀ m : Bool, getErrMsg name em m = .ok (.vStr (p ++ s ++ sf)) := by
  intro m
  simp only [getErrMsg]
  rw [hu, bind_ok]
  simp only [dictGet]
  rw [bind_ok, hname]
  show (do
    let up ← getAttrVal (.vConfig u []) "prefix"
    let s1 ← pyAdd up (.vStr s)
    let us ← getAttrVal (.vConfig u []) "suffix"
    pyAdd s1 us : Except PyErr Val) = _
  rw [getAttrVal_config_present u "prefix" _ hp, bind_ok]
  show (do
    let us ← getAttrVal (.vConfig u []) "suffix"
    pyAdd (.vStr (p ++ s)) us : Except PyErr Val) = _
  rw [getAttrVal_config_present u "suffix" _ hsf, bind_ok]
  rfl

/-- Witness for C1 at concrete inputs: the prepared tree for the user error
messages mapping b to a bare string resolves the missing message of b to the
bare string wrapped in the ambient prefix and suffix. -/
theorem c1_bare_string_override_witness :
    getErrMsg (.str "b")
      ⟨[("b", Val.vStr "aint valid"),
        ("_", Val.vConfig [("prefix", .vStr "{path}.{name} "), ("invalid", .vStr "is invalid"),
          ("missing", .vStr "is missing"), ("suffix", .vStr ".")] [])], []⟩ true =
      .ok (.vStr "{path}.{name} aint valid.") :=
  c1_bare_string_override
    ⟨[("b", Val.vStr "aint valid"),
      ("_", Val.vConfig [("prefix", .vStr "{path}.{name} "), ("invalid", .vStr "is invalid"),
        ("missing", .vStr "is missing"), ("suffix", .vStr ".")] [])], []⟩
    [("prefix", .vStr "{path}.{name} "), ("invalid", .vStr "is invalid"),
      ("missing", .vStr "is missing"), ("suffix", .vStr ".")]
    (.str "b") "{path}.{name} " "aint valid" "." rfl rfl rfl rfl true

/-- Counterexample for C1 as stated: preparing the user error messages that
map b to a bare string and resolving the missing message for b yields the
bare string wrapped with prefix and suffix, which differs from the inherited
general missing text the claim prescribes. -/
theorem c1_bare_string_missing_cex :
    (do
      let pem ← prepEM (.vDict [(.str "b", .vStr "aint valid")]) (.vDict [])
      getErrMsg (.str "b") pem true : Except PyErr Val) =
      .ok (.vStr "{path}.{name} aint valid.") ∧
    ¬ (do
      let pem ← prepEM (.vDict [(.str "b", .vStr "aint valid")]) (.vDict [])
      getErrMsg (.str "b") pem true : Except PyErr Val) =
      .ok (.vStr "{path}.{name} is missing.") := by
  refine ⟨rfl, ?_⟩
  intro h
  have h2 := congrArg projStrR h
  exact absurd h2 (by decide)

/-! Lemmas and claims about the validator walk. -/

theorem followsNode_res_false (attrName : Key) (attr : Val) (node : TNode) (em : Cfg)
    (path : String) (fi1 : FormatInfo) (step : Bool × FormatInfo × List Report)
    (h : followsNode attrName attr node em path fi1 false = .ok step) : step.1 = false := by
  cases node with
  | chk ch =>
      simp only [followsNode] at h
      cases hc : checkFn attr ch with
      | error e => rw [hc] at h; rw [bind_error] at h; cases h
      | ok b =>
          rw [hc, bind_ok] at h
          cases b with
          | true =>
              simp only [if_true] at h
              injection h with h2
              rw [← h2]
          | false =>
              simp only [Bool.false_eq_true, if_false] at h
              cases hm : getErrMsg attrName em false with
              | error e => rw [hm, bind_error] at h; cases h
              | ok msg =>
                  rw [hm, bind_ok] at h
                  injection h with h2
                  rw [← h2]
  | sub st =>
      cases attr with
      | vConfig aes aas =>
          simp only [followsNode] at h
          cases hu : getAttr em "_" with
          | error e => rw [hu, bind_error] at h; cases h
          | ok u =>
              rw [hu, bind_ok] at h
              cases hp : prepEM ((rawGetK em.entries attrName).getD (.vDict []))
                  (.vDict [(.str "_", u)]) with
              | error e => rw [hp, bind_error] at h; cases h
              | ok em2 =>
                  rw [hp, bind_ok] at h
                  cases hs : followsAux ⟨aes, aas⟩ st em2 (newPath path attrName)
                      (initFI (newPath path attrName)) true with
                  | error e => rw [hs, bind_error] at h; cases h
                  | ok sub =>
                      rw [hs, bind_ok] at h
                      injection h with h2
                      rw [← h2]
                      simp
      | vInt a =>
          simp only [followsNode] at h
          cases hm : getErrMsg attrName em true with
          | error e => rw [hm, bind_error] at h; cases h
          | ok msg =>
              rw [hm, bind_ok] at h
              injection h with h2
              rw [← h2]
      | vStr a =>
          simp only [followsNode] at h
          cases hm : getErrMsg attrName em true with
          | error e => rw [hm, bind_error] at h; cases h
          | ok msg =>
              rw [hm, bind_ok] at h
              injection h with h2
              rw [← h2]
      | vBool a =>
          simp only [followsNode] at h
          cases hm : getErrMsg attrName em true with
          | error e => rw [hm, bind_error] at h; cases h
          | ok msg =>
              rw [hm, bind_ok] at h
              injection h with h2
              rw [← h2]
      | vNone =>
          simp only [followsNode] at h
          cases hm : getErrMsg attrName em true with
          | error e => rw [hm, bind_error] at h; cases h
          | ok msg =>
              rw [hm, bind_ok] at h
              injection h with h2
              rw [← h2]
      | vDict a =>
          simp only [followsNode] at h
          cases hm : getErrMsg attrName em true with
          | error e => rw [hm, bind_error] at h; cases h
          | ok msg =>
              rw [hm, bind_ok] at h
              injection h with h2
              rw [← h2]

theorem followsAux_false (fields : Template) (c : Cfg) (em : Cfg) (path : String)
    (fi : FormatInfo) (b : Bool) (rs : List Report)
    (h : followsAux c fields em path fi false = .ok (b, rs)) : b = false := by
  induction fields generalizing fi b rs with
  | nil =>
      simp only [followsAux] at h
      injection h with h2
      injection h2 with h3 h4
      rw [← h3]
  | cons p rest ih =>
      obtain ⟨attrName, node⟩ := p
      simp only [followsAux] at h
      split at h
      · cases hm : getErrMsg attrName em true with
        | error e2 => rw [hm, bind_error] at h; cases h
        | ok msg =>
            rw [hm, bind_ok] at h
            cases hbr : followsAux c rest em path
                { fi with name := some attrName } false with
            | error e2 => rw [hbr, bind_error] at h; cases h
            | ok br =>
                rw [hbr, bind_ok] at h
                injection h with h2
                injection h2 with h3 h4
                rw [← h3]
                exact ih _ _ _ hbr
      · next attr hg =>
          cases hstep : followsNode attrName attr node em path
              { fi with name := some attrName } false with
          | error e => rw [hstep, bind_error] at h; cases h
          | ok step =>
              rw [hstep, bind_ok] at h
              have hs1 : step.1 = false :=
                followsNode_res_false attrName attr node em path _ step hstep
              cases hbr : followsAux c rest em path step.2.1 step.1 with
              | error e => rw [hbr, bind_error] at h; cases h
              | ok br =>
                  rw [hbr, bind_ok] at h
                  injection h with h2
                  injection h2 with h3 h4
                  rw [← h3]
                  rw [hs1] at hbr
                  exact ih _ _ _ hbr

/-- C7: when a template field carries a nested template but the resolved
value is not a Config, the field is reported with the missing-situation
message, the walk does not recurse into the nested template (the result is
the same for every nested template), the remaining fields are still
processed with the accumulated result forced false, and the overall result
of such a walk is false. -/
theorem c7_nested_nonconfig_missing :
    (∀ (c : Cfg) (em : Cfg) (name : Key) (a : Val) (msg : Val)
        (st : List (Key × TNode)) (rest : Template) (path : String)
        (fi : FormatInfo) (res : Bool),
      getAttr c (identifier name) = .ok a →
      isConfigV a = false →
      getErrMsg name em true = .ok msg →
      followsAux c ((name, .sub st) :: rest) em path fi res =
        (match followsAux c rest em path { fi with name := some name } false with
         | .ok br => .ok (br.1, (msg, { fi with name := some name }) :: br.2)
         | .error e => .error e)) ∧
    (∀ (c : Cfg) (fields : Template) (em : Cfg) (path : String) (fi : FormatInfo)
        (b : Bool) (rs : List Report),
      followsAux c fields em path fi false = .ok (b, rs) → b = false) := by
  constructor
  · intro c em name a msg st rest path fi res hget hnc hmsg
    simp only [followsAux]
    rw [hget]
    show (do
      let step ← followsNode name a (.sub st) em path { fi with name := some name } res
      let br ← followsAux c rest em path step.2.1 step.1
      Except.ok (br.1, step.2.2 ++ br.2) : Except PyErr (Bool × List Report)) = _
    have hstep : followsNode name a (.sub st) em path { fi with name := some name } res =
        .ok (false, { fi with name := some name },
          [(msg, { fi with name := some name })]) := by
      cases a with
      | vConfig aes aas => simp [isConfigV] at hnc
      | vInt x => simp only [followsNode]; rw [hmsg, bind_ok]
      | vStr x => simp only [followsNode]; rw [hmsg, bind_ok]
      | vBool x => simp only [followsNode]; rw [hmsg, bind_ok]
      | vNone => simp only [followsNode]; rw [hmsg, bind_ok]
      | vDict x => simp only [followsNode]; rw [hmsg, bind_ok]
    rw [hstep, bind_ok]
    cases hbr : followsAux c rest em path { fi with name := some name } false with
    | error e => rw [bind_error]
    | ok br =>
        rw [bind_ok]
        rfl
  · exact fun c fields em path fi b rs h => followsAux_false fields c em path fi b rs h

/-- Witness for C7 at concrete inputs: a store holding the scalar 3 at s,
checked against a template making s a nested template, reports s with the
default missing message and fails overall. -/
theorem c7_nested_nonconfig_missing_witness :
    followsAux ⟨[("s", Val.vInt 3)], []⟩
      [(.str "s", .sub [(.str "x", .chk (.ckType .tyInt))])]
      ⟨[("_", Val.vConfig [("prefix", .vStr "{path}.{name} "), ("invalid", .vStr "is invalid"),
        ("missing", .vStr "is missing"), ("suffix", .vStr ".")] [])], []⟩
      "" (initFI "") true =
      (match followsAux ⟨[("s", Val.vInt 3)], []⟩ []
          ⟨[("_", Val.vConfig [("prefix", .vStr "{path}.{name} "),
            ("invalid", .vStr "is invalid"), ("missing", .vStr "is missing"),
            ("suffix", .vStr ".")] [])], []⟩
          "" { initFI "" with name := some (.str "s") } false with
       | .ok br => .ok (br.1, (Val.vStr "{path}.{name} is missing.",
           { initFI "" with name := some (.str "s") }) :: br.2)
       | .error e => .error e) :=
  c7_nested_nonconfig_missing.1 ⟨[("s", Val.vInt 3)], []⟩
    ⟨[("_", Val.vConfig [("prefix", .vStr "{path}.{name} "), ("invalid", .vStr "is invalid"),
      ("missing", .vStr "is missing"), ("suffix", .vStr ".")] [])], []⟩
    (.str "s") (.vInt 3) (.vStr "{path}.{name} is missing.")
    [(.str "x", .chk (.ckType .tyInt))] [] "" (initFI "") true rfl rfl rfl

/-- Counterexample for C8 as stated: with x present in the dict at 7 but
shadowed by an ordinary attribute 5, member-style assignment of 9 overwrites
the dict, map-style read observes 9, yet member-style read still observes 5. -/
theorem c8_shadowing_cex :
    updateCfg (setAttr ⟨[], []⟩ "x" (.vInt 5)) (.vDict [(.str "x", .vInt 7)]) =
      .ok ⟨[("x", .vInt 7)], [("x", .vInt 5)]⟩ ∧
    setAttr ⟨[("x", .vInt 7)], [("x", .vInt 5)]⟩ "x" (.vInt 9) =
      ⟨[("x", .vInt 9)], [("x", .vInt 5)]⟩ ∧
    getItem [("x", Val.vInt 9)] (.str "x") = .ok (.vInt 9) ∧
    getAttr ⟨[("x", .vInt 9)], [("x", .vInt 5)]⟩ "x" = .ok (.vInt 5) ∧
    ¬ getAttr ⟨[("x", .vInt 9)], [("x", .vInt 5)]⟩ "x" = .ok (.vInt 9) := by
  refine ⟨rfl, rfl, rfl, rfl, ?_⟩
  intro h
  have h2 := congrArg projIntR h
  exact absurd h2 (by decide)

/-! Lemmas about well-formed error trees, toward the validator claim. -/

theorem four_fix (s : String) (h : isFourName s = true) : identStr s = s := by
  simp only [isFourName, Bool.or_eq_true, beq_iff_eq] at h
  rcases h with ((h | h) | h) | h <;> subst h <;> rfl

theorem four_ne_underscore (s : String) (h : isFourName s = true) : s ≠ "_" := by
  simp only [isFourName, Bool.or_eq_true, beq_iff_eq] at h
  rcases h with ((h | h) | h) | h <;> subst h <;> decide

theorem isStrV_not_mapping (v : Val) (h : isStrV v = true) : isMapping v = false := by
  cases v <;> simp [isStrV, isMapping] at h ⊢

theorem isStrV_exists (v : Val) (h : isStrV v = true) : ∃ s, v = .vStr s := by
  cases v with
  | vStr s => exact ⟨s, rfl⟩
  | vInt a => simp [isStrV] at h
  | vBool a => simp [isStrV] at h
  | vNone => simp [isStrV] at h
  | vDict a => simp [isStrV] at h
  | vConfig a b => simp [isStrV] at h

theorem owfConv_owfV (v : Val) (h : owfConv v = true) : owfV v = true := by
  cases v <;> simp_all [owfConv, owfV]

theorem fourSub_mapping (v : Val) (h : fourSub v = true) : isMapping v = true := by
  cases v <;> simp [fourSub, isMapping] at h ⊢

theorem strAt_spec (es : List (String × Val)) (n : String) (h : strAt es n = true) :
    ∃ s, lookupE es n = some (.vStr s) := by
  unfold strAt at h
  split at h
  · next s heq => exact ⟨s, heq⟩
  · cases h

theorem mem_insertEntry (es : List (String × Val)) (k : String) (v : Val)
    (p : String × Val) (h : p ∈ insertEntry es k v) : p ∈ es ∨ p = (k, v) := by
  induction es with
  | nil =>
      simp [insertEntry] at h
      exact Or.inr h
  | cons q rest ih =>
      obtain ⟨k0, v0⟩ := q
      by_cases hk : k0 = k
      · subst hk
        simp only [insertEntry, if_pos rfl] at h
        rcases List.mem_cons.mp h with heq | h2
        · exact Or.inr (by rw [heq])
        · exact Or.inl (List.mem_cons_of_mem _ h2)
      · simp only [insertEntry, if_neg hk] at h
        rcases List.mem_cons.mp h with heq | h2
        · exact Or.inl (by rw [heq]; exact List.mem_cons_self _ _)
        · rcases ih h2 with h3 | h3
          · exact Or.inl (List.mem_cons_of_mem _ h3)
          · exact Or.inr h3

theorem distinctSV_append_absent (a : List (String × Val)) (k : String) (v : Val)
    (hfix : ∀ p ∈ a, identStr p.1 = p.1) (hkfix : identStr k = k)
    (habs : lookupE a k = Option.none) (hd : distinctSV a = true) :
    distinctSV (a ++ [(k, v)]) = true := by
  induction a with
  | nil => simp [distinctSV]
  | cons q rest ih =>
      obtain ⟨k0, v0⟩ := q
      obtain ⟨hno, hdr⟩ := distinctSV_head k0 v0 rest hd
      simp only [lookupE] at habs
      have hk0 : k0 ≠ k := by
        intro hh
        rw [hh] at habs
        simp at habs
      have habs2 : lookupE rest k = Option.none := by
        simpa [hk0] using habs
      simp only [List.cons_append, distinctSV, Bool.and_eq_true, Bool.not_eq_true',
        List.any_eq_false]
      constructor
      · intro p hp
        rcases List.mem_append.mp hp with h2 | h2
        · simpa using hno p h2
        · rcases List.mem_singleton.mp h2 with rfl
          have e1 : identStr k = k := hkfix
          have e2 : identStr k0 = k0 := hfix (k0, v0) (List.mem_cons_self _ _)
          simp only [e1, e2]
          simpa using fun hh => hk0 hh.symm
      · exact ih (fun p hp => hfix p (List.mem_cons_of_mem _ hp)) habs2 hdr

theorem owfKV_mem (items : List (Key × Val)) (h : owfKV items = true) (k : Key) (v : Val)
    (hm : (k, v) ∈ items) :
    (if identifier k = "_" then fourSub v
     else if isFourName (identifier k) then isStrV v else owfV v) = true := by
  induction items with
  | nil => simp at hm
  | cons p rest ih =>
      obtain ⟨k0, v0⟩ := p
      simp only [owfKV, Bool.and_eq_true] at h
      rcases List.mem_cons.mp hm with heq | h2
      · cases heq
        exact h.1
      · exact ih h.2 h2

theorem owfSV_mem (items : List (String × Val)) (h : owfSV items = true) (k : String)
    (v : Val) (hm : (k, v) ∈ items) :
    (if identStr k = "_" then fourSub v
     else if isFourName (identStr k) then isStrV v else owfV v) = true := by
  induction items with
  | nil => simp at hm
  | cons p rest ih =>
      obtain ⟨k0, v0⟩ := p
      simp only [owfSV, Bool.and_eq_true] at h
      rcases List.mem_cons.mp hm with heq | h2
      · cases heq
        exact h.1
      · exact ih h.2 h2

theorem fourAll_parts (u : List (String × Val)) (h : fourAllB u = true) :
    strAt u "prefix" = true ∧ strAt u "invalid" = true ∧ strAt u "missing" = true ∧
    strAt u "suffix" = true ∧ distinctSV u = true ∧
    (∀ p ∈ u, isFourName p.1 = true ∧ isStrV p.2 = true) := by
  simp only [fourAllB, Bool.and_eq_true, List.all_eq_true] at h
  obtain ⟨⟨⟨⟨⟨h1, h2⟩, h3⟩, h4⟩, h5⟩, h6⟩ := h
  refine ⟨h1, h2, h3, h4, h5, ?_⟩
  intro p hp
  exact h6 p hp

theorem resStrL_parts (l : List (String × Val)) (h : resStrL l = true) :
    distinctSV l = true ∧ (∀ p ∈ l, isFourName p.1 = true ∧ isStrV p.2 = true) := by
  simp only [resStrL, Bool.and_eq_true, List.all_eq_true] at h
  obtain ⟨h1, h2⟩ := h
  refine ⟨h1, ?_⟩
  intro p hp
  exact h2 p hp

theorem convSV_stable (u : List (String × Val))
    (hkeys : ∀ p ∈ u, identStr p.1 = p.1) (hvals : ∀ p ∈ u, isMapping p.2 = false)
    (hdist : distinctSV u = true) : convSV [] u = u := by
  rw [convSV_map u [] (fun p _ => rfl) hdist]
  rw [List.nil_append]
  have h : ∀ p ∈ u,
      (fun p : String × Val => (identStr p.1, if isMapping p.2 then conv p.2 else p.2)) p
        = id p := by
    intro p hp
    simp [hkeys p hp, hvals p hp]
  rw [List.map_congr_left h, List.map_id]

theorem owfSV_of_resStr (l : List (String × Val))
    (h : ∀ p ∈ l, isFourName p.1 = true ∧ isStrV p.2 = true) : owfSV l = true := by
  induction l with
  | nil => rfl
  | cons p rest ih =>
      obtain ⟨k, v⟩ := p
      obtain ⟨hf, hs⟩ := h (k, v) (List.mem_cons_self _ _)
      simp only [owfSV, Bool.and_eq_true]
      constructor
      · rw [four_fix k hf]
        rw [if_neg (four_ne_underscore k hf)]
        rw [if_pos hf]
        exact hs
      · exact ih fun p hp => h p (List.mem_cons_of_mem _ hp)

theorem fourAllB_owfV (u : List (String × Val)) (h : fourAllB u = true) :
    owfV (.vConfig u []) = true := by
  obtain ⟨_, _, _, _, hdist, hall⟩ := fourAll_parts u h
  simp only [owfV, Bool.and_eq_true]
  exact ⟨hdist, owfSV_of_resStr u hall⟩

theorem distinct_map_SV (l : List (String × Val)) (g : Val → Val)
    (hd : distinctSV l = true) :
    distinctSV (l.map fun p => (identStr p.1, g p.2)) = true := by
  induction l with
  | nil => rfl
  | cons p rest ih =>
      obtain ⟨k0, v0⟩ := p
      obtain ⟨hno, hdr⟩ := distinctSV_head k0 v0 rest hd
      simp only [List.map_cons, distinctSV, Bool.and_eq_true, Bool.not_eq_true',
        List.any_eq_false]
      refine ⟨?_, ih hdr⟩
      intro q hq
      obtain ⟨r, hr, hrq⟩ := List.mem_map.mp hq
      rw [← hrq]
      have e1 : identStr (identStr r.1) = identStr r.1 := identStr_idem r.1
      have e2 : identStr (identStr k0) = identStr k0 := identStr_idem k0
      simp only [e1, e2]
      simpa using hno r hr

theorem fourSub_parts_dict (items : List (Key × Val))
    (h : fourSub (.vDict items) = true) :
    distinctKV items = true ∧
    ∀ p ∈ items, isFourName (identifier p.1) = true ∧ isStrV p.2 = true := by
  simp only [fourSub, Bool.and_eq_true, List.all_eq_true] at h
  obtain ⟨h1, h2⟩ := h
  exact ⟨h1, fun p hp => h2 p hp⟩

theorem fourSub_parts_config (ces cas : List (String × Val))
    (h : fourSub (.vConfig ces cas) = true) :
    distinctSV ces = true ∧
    ∀ p ∈ ces, isFourName (identStr p.1) = true ∧ isStrV p.2 = true := by
  simp only [fourSub, Bool.and_eq_true, List.all_eq_true] at h
  obtain ⟨h1, h2⟩ := h
  exact ⟨h1, fun p hp => h2 p hp⟩

theorem fourSub_of_resStr (l : List (String × Val)) (h : resStrL l = true) :
    fourSub (.vConfig l []) = true := by
  obtain ⟨hdist, hall⟩ := resStrL_parts l h
  simp only [fourSub, Bool.and_eq_true, List.all_eq_true]
  refine ⟨hdist, ?_⟩
  intro p hp
  obtain ⟨hf, hs⟩ := hall p hp
  rw [four_fix p.1 hf]
  simp [hf, hs]

/-- Conversion of a well-formed general-error override yields a Config whose
entries form a reserved-only descriptor list. -/
theorem fourSub_conv (x : Val) (h : fourSub x = true) :
    ∃ ce2, conv x = .vConfig ce2 [] ∧ resStrL ce2 = true := by
  cases x with
  | vDict items =>
      obtain ⟨hdist, hall⟩ := fourSub_parts_dict items h
      refine ⟨items.map (fun p =>
        (identifier p.1, if isMapping p.2 then conv p.2 else p.2)), ?_, ?_⟩
      · show Val.vConfig (convKV [] items) [] = _
        rw [convKV_map items [] (fun p _ => rfl) hdist]
        rfl
      · simp only [resStrL, Bool.and_eq_true, List.all_eq_true]
        refine ⟨distinct_map_KV items (fun w => if isMapping w then conv w else w) hdist, ?_⟩
        intro q hq
        obtain ⟨p, hp, hpq⟩ := List.mem_map.mp hq
        rw [← hpq]
        obtain ⟨hf, hs⟩ := hall p hp
        simp only [hf, isStrV_not_mapping p.2 hs, Bool.false_eq_true, if_false,
          Bool.true_and]
        exact ⟨trivial, hs⟩
  | vConfig ces cas =>
      obtain ⟨hdist, hall⟩ := fourSub_parts_config ces cas h
      refine ⟨ces.map (fun p =>
        (identStr p.1, if isMapping p.2 then conv p.2 else p.2)), ?_, ?_⟩
      · show Val.vConfig (convSV [] ces) [] = _
        rw [convSV_map ces [] (fun p _ => rfl) hdist]
        rfl
      · simp only [resStrL, Bool.and_eq_true, List.all_eq_true]
        refine ⟨distinct_map_SV ces (fun w => if isMapping w then conv w else w) hdist, ?_⟩
        intro q hq
        obtain ⟨p, hp, hpq⟩ := List.mem_map.mp hq
        rw [← hpq]
        obtain ⟨hf, hs⟩ := hall p hp
        simp only [hf, isStrV_not_mapping p.2 hs, Bool.false_eq_true, if_false,
          Bool.true_and]
        exact ⟨trivial, hs⟩
  | vInt a => simp [fourSub] at h
  | vStr a => simp [fourSub] at h
  | vBool a => simp [fourSub] at h
  | vNone => simp [fourSub] at h

/-- Conversion preserves well-formedness of an error-messages tree. -/
theorem conv_owf : ∀ (N : Nat) (v : Val), sizeOf v < N → isMapping v = true →
    owfV v = true → owfConv (conv v) = true := by
  intro N
  induction N with
  | zero => intro v h; omega
  | succ N ih =>
      intro v hv hm howf
      cases v with
      | vInt a => simp [isMapping] at hm
      | vStr a => simp [isMapping] at hm
      | vBool a => simp [isMapping] at hm
      | vNone => simp [isMapping] at hm
      | vDict items =>
          simp only [owfV, Bool.and_eq_true] at howf
          obtain ⟨hdist, howfl⟩ := howf
          have hconv : conv (.vDict items) =
              .vConfig (items.map (fun p =>
                (identifier p.1, if isMapping p.2 then conv p.2 else p.2))) [] := by
            show Val.vConfig (convKV [] items) [] = _
            rw [convKV_map items [] (fun p _ => rfl) hdist]
            rfl
          rw [hconv]
          simp only [owfConv, Bool.and_eq_true]
          refine ⟨distinct_map_KV items (fun w => if isMapping w then conv w else w) hdist, ?_⟩
          have hsub : ∀ items2 : List (Key × Val), owfKV items2 = true →
              (∀ p ∈ items2, p ∈ items) →
              owfSV (items2.map (fun p =>
                (identifier p.1, if isMapping p.2 then conv p.2 else p.2))) = true := by
            intro items2
            induction items2 with
            | nil => intro _ _; rfl
            | cons q rest2 ih2 =>
                intro howf2 hsub2
                obtain ⟨k, v2⟩ := q
                simp only [owfKV, Bool.and_eq_true] at howf2
                obtain ⟨hb, hrest2⟩ := howf2
                have hq : (k, v2) ∈ items := hsub2 _ (List.mem_cons_self _ _)
                simp only [List.map_cons, owfSV, Bool.and_eq_true]
                refine ⟨?_, ih2 hrest2 fun p hp => hsub2 p (List.mem_cons_of_mem _ hp)⟩
                rw [identifier_idem k]
                by_cases hu : identifier k = "_"
                · rw [if_pos hu] at hb ⊢
                  have hm2 : isMapping v2 = true := fourSub_mapping v2 hb
                  rw [if_pos hm2]
                  obtain ⟨ce2, hc, hres⟩ := fourSub_conv v2 hb
                  rw [hc]
                  exact fourSub_of_resStr ce2 hres
                · rw [if_neg hu] at hb ⊢
                  by_cases hf : isFourName (identifier k) = true
                  · rw [if_pos hf] at hb ⊢
                    rw [isStrV_not_mapping v2 hb]
                    simpa using hb
                  · rw [if_neg hf] at hb ⊢
                    by_cases hm2 : isMapping v2 = true
                    · rw [if_pos hm2]
                      have hs2 : sizeOf v2 < N := by
                        have := mem_sizeOf_KV items k v2 hq
                        simp only [Val.vDict.sizeOf_spec] at hv
                        omega
                      exact owfConv_owfV _ (ih v2 hs2 hm2 hb)
                    · have hm3 : isMapping v2 = false := by simpa using hm2
                      rw [hm3]
                      simpa using hb
          exact hsub items howfl fun p hp => hp
      | vConfig ces cas =>
          simp only [owfV, Bool.and_eq_true] at howf
          obtain ⟨hdist, howfl⟩ := howf
          have hconv : conv (.vConfig ces cas) =
              .vConfig (ces.map (fun p =>
                (identStr p.1, if isMapping p.2 then conv p.2 else p.2))) [] := by
            show Val.vConfig (convSV [] ces) [] = _
            rw [convSV_map ces [] (fun p _ => rfl) hdist]
            rfl
          rw [hconv]
          simp only [owfConv, Bool.and_eq_true]
          refine ⟨distinct_map_SV ces (fun w => if isMapping w then conv w else w) hdist, ?_⟩
          have hsub : ∀ items2 : List (String × Val), owfSV items2 = true →
              (∀ p ∈ items2, p ∈ ces) →
              owfSV (items2.map (fun p =>
                (identStr p.1, if isMapping p.2 then conv p.2 else p.2))) = true := by
            intro items2
            induction items2 with
            | nil => intro _ _; rfl
            | cons q rest2 ih2 =>
                intro howf2 hsub2
                obtain ⟨k, v2⟩ := q
                simp only [owfSV, Bool.and_eq_true] at howf2
                obtain ⟨hb, hrest2⟩ := howf2
                have hq : (k, v2) ∈ ces := hsub2 _ (List.mem_cons_self _ _)
                simp only [List.map_cons, owfSV, Bool.and_eq_true]
                refine ⟨?_, ih2 hrest2 fun p hp => hsub2 p (List.mem_cons_of_mem _ hp)⟩
                rw [identStr_idem k]
                by_cases hu : identStr k = "_"
                · rw [if_pos hu] at hb ⊢
                  have hm2 : isMapping v2 = true := fourSub_mapping v2 hb
                  rw [if_pos hm2]
                  obtain ⟨ce2, hc, hres⟩ := fourSub_conv v2 hb
                  rw [hc]
                  exact fourSub_of_resStr ce2 hres
                · rw [if_neg hu] at hb ⊢
                  by_cases hf : isFourName (identStr k) = true
                  · rw [if_pos hf] at hb ⊢
                    rw [isStrV_not_mapping v2 hb]
                    simpa using hb
                  · rw [if_neg hf] at hb ⊢
                    by_cases hm2 : isMapping v2 = true
                    · rw [if_pos hm2]
                      have hs2 : sizeOf v2 < N := by
                        have := mem_sizeOf_SV ces k v2 hq
                        simp only [Val.vConfig.sizeOf_spec] at hv
                        omega
                      exact owfConv_owfV _ (ih v2 hs2 hm2 hb)
                    · have hm3 : isMapping v2 = false := by simpa using hm2
                      rw [hm3]
                      simpa using hb
          exact hsub ces howfl fun p hp => hp

/-- Filling a reserved-only descriptor with the keys of a complete reserved
descriptor succeeds and merges the two, local entries winning. -/
theorem sdSV_fill (u : List (String × Val)) :
    ∀ (a : List (String × Val)),
      (∀ p ∈ u, isFourName p.1 = true ∧ isStrV p.2 = true) →
      (∀ p ∈ a, isFourName p.1 = true ∧ isStrV p.2 = true) →
      distinctSV a = true →
      ∃ a2, sdSV a u = .ok a2 ∧
        (∀ p ∈ a2, isFourName p.1 = true ∧ isStrV p.2 = true) ∧
        distinctSV a2 = true ∧
        (∀ n, lookupE a2 n =
          (match lookupE a n with
           | some w => some w
           | Option.none => lookupE u n)) := by
  induction u with
  | nil =>
      intro a _ ha hd
      refine ⟨a, rfl, ha, hd, ?_⟩
      intro n
      cases lookupE a n <;> rfl
  | cons q rest ih =>
      intro a hu ha hd
      obtain ⟨k, sv⟩ := q
      obtain ⟨hkf, hks⟩ := hu (k, sv) (List.mem_cons_self _ _)
      have hur : ∀ p ∈ rest, isFourName p.1 = true ∧ isStrV p.2 = true :=
        fun p hp => hu p (List.mem_cons_of_mem _ hp)
      have hm : isMapping sv = false := isStrV_not_mapping _ hks
      have hfix : identStr k = k := four_fix k hkf
      rw [sdSV_cons_scalar a k sv rest hm, hfix]
      cases hl : lookupE a k with
      | some w =>
          obtain ⟨a2, hsd, ha2, hd2, hlk⟩ := ih a hur ha hd
          refine ⟨a2, hsd, ha2, hd2, ?_⟩
          intro n
          rw [hlk n]
          cases hn : lookupE a n with
          | some w2 => rfl
          | none =>
              show lookupE rest n = if k = n then some sv else lookupE rest n
              rcases eq_or_ne k n with rfl | hne
              · rw [hl] at hn
                cases hn
              · rw [if_neg hne]
      | none =>
          rw [insertEntry_absent a k sv hl]
          have ha1 : ∀ p ∈ a ++ [(k, sv)], isFourName p.1 = true ∧ isStrV p.2 = true := by
            intro p hp
            rcases List.mem_append.mp hp with h2 | h2
            · exact ha p h2
            · rcases List.mem_singleton.mp h2 with rfl
              exact ⟨hkf, hks⟩
          have hd1 : distinctSV (a ++ [(k, sv)]) =  true :=
            distinctSV_append_absent a k sv
              (fun p hp => four_fix p.1 (ha p hp).1) hfix hl hd
          obtain ⟨a2, hsd, ha2, hd2, hlk⟩ := ih (a ++ [(k, sv)]) hur ha1 hd1
          refine ⟨a2, hsd, ha2, hd2, ?_⟩
          intro n
          rw [hlk n, lookupE_append]
          cases hn : lookupE a n with
          | some w2 => rfl
          | none =>
              show (match lookupE [(k, sv)] n with
                    | some w => some w
                    | Option.none => lookupE rest n) =
                  if k = n then some sv else lookupE rest n
              rcases eq_or_ne k n with rfl | hne
              · simp [lookupE]
              · simp [lookupE, hne]

/-- set_defaults with the class general errors is a no-op on a complete
descriptor. -/
theorem sd_general_skip (u : List (String × Val)) (h : fourAllB u = true) :
    sdVal u generalErrors = .ok u := by
  obtain ⟨hp, hi, hm, hs, _, _⟩ := fourAll_parts u h
  obtain ⟨ps, hps⟩ := strAt_spec u "prefix" hp
  obtain ⟨ivs, his⟩ := strAt_spec u "invalid" hi
  obtain ⟨ms, hms⟩ := strAt_spec u "missing" hm
  obtain ⟨ss, hss⟩ := strAt_spec u "suffix" hs
  show sdKV u [(.str "prefix", .vStr "{path}.{name} "), (.str "invalid", .vStr "is invalid"),
    (.str "missing", .vStr "is missing"), (.str "suffix", .vStr ".")] = .ok u
  rw [sdKV_cons_scalar u (.str "prefix") (.vStr "{path}.{name} ") _ rfl,
    identifier_str_eq "prefix", four_fix "prefix" (by decide), hps]
  show sdKV u [(.str "invalid", .vStr "is invalid"),
    (.str "missing", .vStr "is missing"), (.str "suffix", .vStr ".")] = .ok u
  rw [sdKV_cons_scalar u (.str "invalid") (.vStr "is invalid") _ rfl,
    identifier_str_eq "invalid", four_fix "invalid" (by decide), his]
  show sdKV u [(.str "missing", .vStr "is missing"), (.str "suffix", .vStr ".")] = .ok u
  rw [sdKV_cons_scalar u (.str "missing") (.vStr "is missing") _ rfl,
    identifier_str_eq "missing", four_fix "missing" (by decide), hms]
  show sdKV u [(.str "suffix", .vStr ".")] = .ok u
  rw [sdKV_cons_scalar u (.str "suffix") (.vStr ".") _ rfl,
    identifier_str_eq "suffix", four_fix "suffix" (by decide), hss]
  rfl

/-- The inner Config built by preparation from a complete descriptor. -/
theorem inner_shape (u : List (String × Val)) (h : fourAllB u = true) :
    configNew (.vDict [(.str "_", .vConfig u [])]) (.vDict [(.str "_", generalErrors)]) =
      .ok ⟨[("_", .vConfig u [])], []⟩ := by
  obtain ⟨_, _, _, _, hdist, hall⟩ := fourAll_parts u h
  have hstable : convSV [] u = u :=
    convSV_stable u (fun p hp => four_fix p.1 (hall p hp).1)
      (fun p hp => isStrV_not_mapping p.2 (hall p hp).2) hdist
  have h1 : updAny [] (.vDict [(.str "_", .vConfig u [])]) =
      .ok [("_", Val.vConfig u [])] := by
    show Except.ok (convKV [] [(Key.str "_", Val.vConfig u [])]) = _
    rw [convKV_single]
    show Except.ok (insertEntry [] "_" (Val.vConfig (convSV [] u) [])) =
      Except.ok [("_", Val.vConfig u [])]
    rw [hstable]
    rfl
  have h2 : sdVal [("_", Val.vConfig u [])] (.vDict [(.str "_", generalErrors)]) =
      .ok [("_", Val.vConfig u [])] := by
    show sdKV [("_", Val.vConfig u [])] [(.str "_", generalErrors)] = _
    rw [sdKV_cons_mapping_present [("_", Val.vConfig u [])] (.str "_") generalErrors u []
      [] rfl rfl]
    rw [sd_general_skip u h]
    rfl
  simp only [configNew]
  rw [h1, bind_ok, h2, bind_ok]
  rfl

/-- The inner Config built by preparation at the top level. -/
theorem inner_top :
    configNew (.vDict []) (.vDict [(.str "_", generalErrors)]) =
      .ok ⟨[("_", .vConfig genEntries [])], []⟩ := by
  rfl

theorem genEntries_fourAll : fourAllB genEntries = true := by decide

theorem strAt_of_lookup (es : List (String × Val)) (n : String) (s : String)
    (h : lookupE es n = some (.vStr s)) : strAt es n = true := by
  unfold strAt
  rw [h]

theorem fourAllB_intro (u : List (String × Val)) (h1 : strAt u "prefix" = true)
    (h2 : strAt u "invalid" = true) (h3 : strAt u "missing" = true)
    (h4 : strAt u "suffix" = true) (h5 : distinctSV u = true)
    (h6 : ∀ p ∈ u, isFourName p.1 = true ∧ isStrV p.2 = true) : fourAllB u = true := by
  simp only [fourAllB, Bool.and_eq_true, List.all_eq_true]
  exact ⟨⟨⟨⟨⟨h1, h2⟩, h3⟩, h4⟩, h5⟩, fun p hp => h6 p hp⟩

theorem pwfB_intro (es2 u2 : List (String × Val))
    (hl : lookupE es2 "_" = some (Val.vConfig u2 []))
    (hu : fourAllB u2 = true)
    (hall : ∀ p ∈ es2, p.1 = "_" ∨ owfConv p.2 = true) :
    pwfB ⟨es2, []⟩ = true := by
  simp only [pwfB, Bool.and_eq_true]
  refine ⟨⟨rfl, ?_⟩, ?_⟩
  · rw [hl]
    show (List.isEmpty ([] : List (String × Val)) && fourAllB u2) = true
    rw [hu]
    rfl
  · simp only [List.all_eq_true]
    intro p hp
    rcases hall p hp with h | h
    · simp [h]
    · simp [h]

/-- Looking up a reserved name in a list whose reserved-named entries hold
strings yields a string, when the name is found at all. -/
theorem strAt_merge (a2 ce2 u0 : List (String × Val)) (n : String)
    (hlk : lookupE a2 n =
      (match lookupE ce2 n with
       | some w => some w
       | Option.none => lookupE u0 n))
    (hall2 : ∀ p ∈ ce2, isFourName p.1 = true ∧ isStrV p.2 = true)
    (hs : strAt u0 n = true) : strAt a2 n = true := by
  cases hc : lookupE ce2 n with
  | some w =>
      have hmem := lookupE_mem ce2 n w hc
      obtain ⟨s, hv⟩ := isStrV_exists w (hall2 (n, w) hmem).2
      apply strAt_of_lookup a2 n s
      rw [hlk, hc, hv]
  | none =>
      obtain ⟨s, hv⟩ := strAt_spec u0 n hs
      apply strAt_of_lookup a2 n s
      rw [hlk, hc, hv]

/-- The set_defaults pass of preparation: filling the complete descriptor into
an update-converted error tree yields a prepared Config. -/
theorem sd_outer (CE u0 : List (String × Val))
    (hund : ∀ p ∈ CE, p.1 = "_" → ∃ ce2, p.2 = Val.vConfig ce2 [] ∧ resStrL ce2 = true)
    (howf : ∀ p ∈ CE, p.1 ≠ "_" → owfConv p.2 = true)
    (hu : fourAllB u0 = true) :
    ∃ es2, sdSV CE [("_", Val.vConfig u0 [])] = .ok es2 ∧ pwfB ⟨es2, []⟩ = true := by
  obtain ⟨hsp, hsi, hsm, hss, hdist0, hall0⟩ := fourAll_parts u0 hu
  cases hl : lookupE CE "_" with
  | none =>
      have hstable : convSV [] u0 = u0 :=
        convSV_stable u0 (fun p hp => four_fix p.1 (hall0 p hp).1)
          (fun p hp => isStrV_not_mapping p.2 (hall0 p hp).2) hdist0
      have hcc : conv (conv (Val.vConfig u0 [])) = Val.vConfig u0 [] := by
        show Val.vConfig (convSV [] (convSV [] u0)) [] = _
        rw [hstable, hstable]
      refine ⟨CE ++ [("_", Val.vConfig u0 [])], ?_, ?_⟩
      · rw [sdSV_cons_mapping_absent CE "_" (Val.vConfig u0 []) [] rfl hl]
        show Except.ok (insertEntry CE "_" (conv (conv (Val.vConfig u0 [])))) =
          Except.ok (CE ++ [("_", Val.vConfig u0 [])])
        rw [hcc, insertEntry_absent CE "_" (Val.vConfig u0 []) hl]
      · apply pwfB_intro _ u0 _ hu
        · intro p hp
          rcases List.mem_append.mp hp with h2 | h2
          · rcases eq_or_ne p.1 "_" with he | he
            · exact Or.inl he
            · exact Or.inr (howf p h2 he)
          · rcases List.mem_singleton.mp h2 with rfl
            exact Or.inl rfl
        · rw [lookupE_append, hl]
          rfl
  | some w =>
      have hmem := lookupE_mem CE "_" w hl
      obtain ⟨ce2, hw, hres⟩ := hund ("_", w) hmem rfl
      subst hw
      obtain ⟨hd2, hall2⟩ := resStrL_parts ce2 hres
      obtain ⟨a2, hfill, ha2, hda2, hlk⟩ := sdSV_fill u0 ce2 hall0 hall2 hd2
      refine ⟨insertEntry CE "_" (Val.vConfig a2 []), ?_, ?_⟩
      · rw [sdSV_cons_mapping_present CE "_" (Val.vConfig u0 []) ce2 [] [] rfl hl]
        rw [show sdVal ce2 (Val.vConfig u0 []) = Except.ok a2 from hfill]
        rfl
      · apply pwfB_intro _ a2
        · rw [lookupE_insert, if_pos rfl]
        · apply fourAllB_intro a2
          · exact strAt_merge a2 ce2 u0 "prefix" (hlk "prefix") hall2 hsp
          · exact strAt_merge a2 ce2 u0 "invalid" (hlk "invalid") hall2 hsi
          · exact strAt_merge a2 ce2 u0 "missing" (hlk "missing") hall2 hsm
          · exact strAt_merge a2 ce2 u0 "suffix" (hlk "suffix") hall2 hss
          · exact hda2
          · exact ha2
        · intro p hp
          rcases mem_insertEntry CE "_" (Val.vConfig a2 []) p hp with h2 | h2
          · rcases eq_or_ne p.1 "_" with he | he
            · exact Or.inl he
            · exact Or.inr (howf p h2 he)
          · exact Or.inl (by rw [h2])

theorem owfConv_of_scalar (v : Val) (howf : owfV v = true) (hm : isMapping v = false) :
    owfConv v = true := by
  cases v <;> simp_all [owfV, owfConv, isMapping]

theorem owfConv_any (v : Val) (howf : owfV v = true) :
    owfConv (if isMapping v then conv v else v) = true := by
  cases hm : isMapping v with
  | false =>
      simp only [Bool.false_eq_true, if_false]
      exact owfConv_of_scalar v howf hm
  | true =>
      rw [if_pos rfl]
      exact conv_owf (sizeOf v + 1) v (by omega) hm howf

/-- The entries produced by update from a well-formed int-or-text keyed tree:
the reserved name carries a reserved-only descriptor Config, every other
field a well-formed converted tree. -/
theorem mapCE_KV (items : List (Key × Val)) (howfl : owfKV items = true) :
    ∀ p ∈ items.map (fun p => (identifier p.1, if isMapping p.2 then conv p.2 else p.2)),
      (p.1 = "_" → ∃ ce2, p.2 = Val.vConfig ce2 [] ∧ resStrL ce2 = true) ∧
      (p.1 ≠ "_" → owfConv p.2 = true) := by
  intro p hp
  obtain ⟨q, hq, hpq⟩ := List.mem_map.mp hp
  obtain ⟨k, v2⟩ := q
  subst hpq
  have hb := owfKV_mem items howfl k v2 hq
  constructor
  · intro hund
    have hund2 : identifier k = "_" := hund
    rw [if_pos hund2] at hb
    have hm := fourSub_mapping v2 hb
    obtain ⟨ce2, hc, hres⟩ := fourSub_conv v2 hb
    refine ⟨ce2, ?_, hres⟩
    show (if isMapping v2 then conv v2 else v2) = Val.vConfig ce2 []
    rw [if_pos hm, hc]
  · intro hne
    have hne2 : identifier k ≠ "_" := hne
    rw [if_neg hne2] at hb
    show owfConv (if isMapping v2 then conv v2 else v2) = true
    apply owfConv_any
    by_cases hf : isFourName (identifier k) = true
    · rw [if_pos hf] at hb
      obtain ⟨s, hv⟩ := isStrV_exists v2 hb
      rw [hv]
      rfl
    · rw [if_neg hf] at hb
      exact hb

/-- As mapCE_KV, for the string-keyed entries of a Config. -/
theorem mapCE_SV (items : List (String × Val)) (howfl : owfSV items = true) :
    ∀ p ∈ items.map (fun p => (identStr p.1, if isMapping p.2 then conv p.2 else p.2)),
      (p.1 = "_" → ∃ ce2, p.2 = Val.vConfig ce2 [] ∧ resStrL ce2 = true) ∧
      (p.1 ≠ "_" → owfConv p.2 = true) := by
  intro p hp
  obtain ⟨q, hq, hpq⟩ := List.mem_map.mp hp
  obtain ⟨k, v2⟩ := q
  subst hpq
  have hb := owfSV_mem items howfl k v2 hq
  constructor
  · intro hund
    have hund2 : identStr k = "_" := hund
    rw [if_pos hund2] at hb
    have hm := fourSub_mapping v2 hb
    obtain ⟨ce2, hc, hres⟩ := fourSub_conv v2 hb
    refine ⟨ce2, ?_, hres⟩
    show (if isMapping v2 then conv v2 else v2) = Val.vConfig ce2 []
    rw [if_pos hm, hc]
  · intro hne
    have hne2 : identStr k ≠ "_" := hne
    rw [if_neg hne2] at hb
    show owfConv (if isMapping v2 then conv v2 else v2) = true
    apply owfConv_any
    by_cases hf : isFourName (identStr k) = true
    · rw [if_pos hf] at hb
      obtain ⟨s, hv⟩ := isStrV_exists v2 hb
      rw [hv]
      rfl
    · rw [if_neg hf] at hb
      exact hb

/-- The second configNew of preparation: layering a well-formed override tree
over a prepared inner Config yields a prepared Config. -/
theorem cn_outer (ov : Val) (u0 : List (String × Val)) (howf : owfV ov = true)
    (hu : fourAllB u0 = true) :
    ∃ em2,
      configNew
        (match ov with
         | .vStr s => Val.vConfig (convKV [] [(.str "_", .vDict [(.str "invalid", .vStr s)])]) []
         | e => e)
        (.vConfig [("_", Val.vConfig u0 [])] []) = .ok em2 ∧ pwfB em2 = true := by
  cases ov with
  | vInt a => simp [owfV] at howf
  | vBool a => simp [owfV] at howf
  | vNone => simp [owfV] at howf
  | vStr s =>
      have h1 : updAny []
          (Val.vConfig (convKV [] [(.str "_", .vDict [(.str "invalid", .vStr s)])]) []) =
          .ok [("_", Val.vConfig [("invalid", Val.vStr s)] [])] := rfl
      have hund : ∀ p ∈ [("_", Val.vConfig [("invalid", Val.vStr s)] [])],
          p.1 = "_" → ∃ ce2, p.2 = Val.vConfig ce2 [] ∧ resStrL ce2 = true := by
        intro p hp _
        rcases List.mem_singleton.mp hp with rfl
        exact ⟨[("invalid", Val.vStr s)], rfl, rfl⟩
      have howf2 : ∀ p ∈ [("_", Val.vConfig [("invalid", Val.vStr s)] [])],
          p.1 ≠ "_" → owfConv p.2 = true := by
        intro p hp hne
        rcases List.mem_singleton.mp hp with rfl
        exact absurd rfl hne
      obtain ⟨es2, hsd, hpwf⟩ := sd_outer _ u0 hund howf2 hu
      refine ⟨⟨es2, []⟩, ?_, hpwf⟩
      show (do
        let es ← updAny []
          (Val.vConfig (convKV [] [(.str "_", .vDict [(.str "invalid", .vStr s)])]) [])
        let es2x ← sdVal es (.vConfig [("_", Val.vConfig u0 [])] [])
        return (⟨es2x, []⟩ : Cfg) : Except PyErr Cfg) = .ok ⟨es2, []⟩
      rw [h1, bind_ok]
      rw [show sdVal [("_", Val.vConfig [("invalid", Val.vStr s)] [])]
          (Val.vConfig [("_", Val.vConfig u0 [])] []) = Except.ok es2 from hsd, bind_ok]
      rfl
  | vDict items =>
      simp only [owfV, Bool.and_eq_true] at howf
      obtain ⟨hdist, howfl⟩ := howf
      have h1 : updAny [] (Val.vDict items) =
          .ok (items.map (fun p => (identifier p.1, if isMapping p.2 then conv p.2 else p.2))) := by
        show Except.ok (convKV [] items) = _
        rw [convKV_map items [] (fun p _ => rfl) hdist, List.nil_append]
      have hfacts := mapCE_KV items howfl
      obtain ⟨es2, hsd, hpwf⟩ := sd_outer _ u0
        (fun p hp => (hfacts p hp).1) (fun p hp => (hfacts p hp).2) hu
      refine ⟨⟨es2, []⟩, ?_, hpwf⟩
      show (do
        let es ← updAny [] (Val.vDict items)
        let es2x ← sdVal es (.vConfig [("_", Val.vConfig u0 [])] [])
        return (⟨es2x, []⟩ : Cfg) : Except PyErr Cfg) = .ok ⟨es2, []⟩
      rw [h1, bind_ok]
      rw [show sdVal
          (items.map (fun p => (identifier p.1, if isMapping p.2 then conv p.2 else p.2)))
          (Val.vConfig [("_", Val.vConfig u0 [])] []) = Except.ok es2 from hsd, bind_ok]
      rfl
  | vConfig ces cas =>
      simp only [owfV, Bool.and_eq_true] at howf
      obtain ⟨hdist, howfl⟩ := howf
      have h1 : updAny [] (Val.vConfig ces cas) =
          .ok (ces.map (fun p => (identStr p.1, if isMapping p.2 then conv p.2 else p.2))) := by
        show Except.ok (convSV [] ces) = _
        rw [convSV_map ces [] (fun p _ => rfl) hdist, List.nil_append]
      have hfacts := mapCE_SV ces howfl
      obtain ⟨es2, hsd, hpwf⟩ := sd_outer _ u0
        (fun p hp => (hfacts p hp).1) (fun p hp => (hfacts p hp).2) hu
      refine ⟨⟨es2, []⟩, ?_, hpwf⟩
      show (do
        let es ← updAny [] (Val.vConfig ces cas)
        let es2x ← sdVal es (.vConfig [("_", Val.vConfig u0 [])] [])
        return (⟨es2x, []⟩ : Cfg) : Except PyErr Cfg) = .ok ⟨es2, []⟩
      rw [h1, bind_ok]
      rw [show sdVal
          (ces.map (fun p => (identStr p.1, if isMapping p.2 then conv p.2 else p.2)))
          (Val.vConfig [("_", Val.vConfig u0 [])] []) = Except.ok es2 from hsd, bind_ok]
      rfl

/-- The definitional unfolding of prepEM, with the bare-string adjustment of
the override spelled out. -/
theorem prepEM_eq (ov defaults : Val) :
    prepEM ov defaults =
      (do
        let inner ← configNew defaults (.vDict [(.str "_", generalErrors)])
        configNew
          (match ov with
           | .vStr s =>
               Val.vConfig (convKV [] [(.str "_", .vDict [(.str "invalid", .vStr s)])]) []
           | e => e)
          (.vConfig inner.entries inner.attrs)) := rfl

/-- Preparing a well-formed override tree against a complete parent
descriptor succeeds and yields a prepared Config. -/
theorem prep_child (ov : Val) (u0 : List (String × Val)) (howf : owfV ov = true)
    (hu : fourAllB u0 = true) :
    ∃ em2, prepEM ov (.vDict [(.str "_", Val.vConfig u0 [])]) = .ok em2 ∧
      pwfB em2 = true := by
  obtain ⟨em2, hc, hp⟩ := cn_outer ov u0 howf hu
  refine ⟨em2, ?_, hp⟩
  rw [prepEM_eq, inner_shape u0 hu, bind_ok]
  exact hc

/-- Preparing a well-formed error-messages tree at the top level succeeds and
yields a prepared Config. -/
theorem prep_top (em : Val) (howf : owfV em = true) :
    ∃ pem, prepEM em (.vDict []) = .ok pem ∧ pwfB pem = true := by
  obtain ⟨em2, hc, hp⟩ := cn_outer em genEntries howf genEntries_fourAll
  refine ⟨em2, ?_, hp⟩
  rw [prepEM_eq, inner_top, bind_ok]
  exact hc

theorem rawGetK_str (es : List (String × Val)) (s : String) :
    rawGetK es (.str s) = lookupE es s := rfl

theorem getD_some (w d : Val) : (some w).getD d = w := rfl

/-- The three components of the prepared-Config invariant. -/
theorem pwf_parts (c : Cfg) (h : pwfB c = true) :
    c.attrs = [] ∧
    (∃ u, lookupE c.entries "_" = some (Val.vConfig u []) ∧ fourAllB u = true) ∧
    (∀ p ∈ c.entries, p.1 = "_" ∨ owfConv p.2 = true) := by
  simp only [pwfB, Bool.and_eq_true] at h
  obtain ⟨⟨h1, h2⟩, h3⟩ := h
  refine ⟨?_, ?_, ?_⟩
  · cases hc : c.attrs with
    | nil => rfl
    | cons a l => rw [hc] at h1; simp [List.isEmpty] at h1
  · split at h2
    · rename_i u ua heq
      rw [Bool.and_eq_true] at h2
      obtain ⟨hua, hfu⟩ := h2
      have hua2 : ua = [] := by
        cases hua3 : ua with
        | nil => rfl
        | cons a l => rw [hua3] at hua; simp [List.isEmpty] at hua
      refine ⟨u, ?_, hfu⟩
      rw [heq, hua2]
    · cases h2
  · simp only [List.all_eq_true, Bool.or_eq_true, beq_iff_eq] at h3
    exact h3

/-- The reserved descriptor of a prepared Config resolves through attribute
access to a complete descriptor Config. -/
theorem pwf_getu (em : Cfg) (h : pwfB em = true) :
    ∃ u0, getAttr em "_" = .ok (Val.vConfig u0 []) ∧ fourAllB u0 = true := by
  obtain ⟨ha, ⟨u, hl, hf⟩, _⟩ := pwf_parts em h
  refine ⟨u, ?_, hf⟩
  rw [getAttr_eq, ha]
  show (match getItem em.entries (.str "_") with
        | .ok v => Except.ok v
        | .error _ => Except.error PyErr.attributeError) = _
  rw [getItem_str, hl]

/-- A reserved name found in a well-formed descriptor list carries a string. -/
theorem owfSV_lookup_four (oes : List (String × Val)) (howfo : owfSV oes = true)
    (n : String) (hf : isFourName n = true) (w : Val) (hl : lookupE oes n = some w) :
    ∃ s, w = Val.vStr s := by
  have hmem := lookupE_mem oes n w hl
  have hb := owfSV_mem oes howfo n w hmem
  rw [four_fix n hf, if_neg (four_ne_underscore n hf), if_pos hf] at hb
  exact isStrV_exists w hb

/-- The definitional unfolding of getErrMsg with the pure lets inlined. -/
theorem getErrMsg_eq (attrName : Key) (em : Cfg) (m : Bool) :
    getErrMsg attrName em m =
      (do
        let u ← getAttr em "_"
        let dflt ← dictGet u (if m then "missing" else "invalid")
        match (match rawGetK em.entries attrName with
               | some v => v
               | Option.none => dflt.getD .vNone) with
        | .vConfig oes _ => do
            let up ← getAttrVal u "prefix"
            let s1 ← pyAdd ((lookupE oes "prefix").getD up)
              ((lookupE oes (if m then "missing" else "invalid")).getD (dflt.getD .vNone))
            let us ← getAttrVal u "suffix"
            pyAdd s1 ((lookupE oes "suffix").getD us)
        | e => do
            let up ← getAttrVal u "prefix"
            let s1 ← pyAdd up e
            let us ← getAttrVal u "suffix"
            pyAdd s1 us) := rfl

/-- On a prepared error-messages Config the resolver is total and returns a
string for every field name and both situations. -/
theorem pwf_errmsg (em : Cfg) (h : pwfB em = true) (name : Key) (m : Bool) :
    ∃ s, getErrMsg name em m = .ok (.vStr s) := by
  obtain ⟨ha, ⟨u0, hl, hfu⟩, hall⟩ := pwf_parts em h
  obtain ⟨hsp, hsi, hsm, hssx, hdist0, hall0⟩ := fourAll_parts u0 hfu
  have hu : getAttr em "_" = .ok (Val.vConfig u0 []) := by
    rw [getAttr_eq, ha]
    show (match getItem em.entries (.str "_") with
          | .ok v => Except.ok v
          | .error _ => Except.error PyErr.attributeError) = _
    rw [getItem_str, hl]
  have hsit : strAt u0 (if m then "missing" else "invalid") = true := by
    cases m
    · exact hsi
    · exact hsm
  obtain ⟨ds, hds⟩ := strAt_spec u0 _ hsit
  have hd : dictGet (Val.vConfig u0 []) (if m then "missing" else "invalid") =
      .ok (some (Val.vStr ds)) := by
    show Except.ok (lookupE u0 (if m then "missing" else "invalid")) = _
    rw [hds]
  have hplain : ∀ (x : String),
      ∃ s, (do
        let up ← getAttrVal (Val.vConfig u0 []) "prefix"
        let s1 ← pyAdd up (Val.vStr x)
        let us ← getAttrVal (Val.vConfig u0 []) "suffix"
        pyAdd s1 us : Except PyErr Val) = .ok (.vStr s) := by
    intro x
    obtain ⟨ps, hps⟩ := strAt_spec u0 "prefix" hsp
    obtain ⟨ss2, hss2⟩ := strAt_spec u0 "suffix" hssx
    refine ⟨ps ++ x ++ ss2, ?_⟩
    rw [getAttrVal_config_present u0 "prefix" _ hps, bind_ok]
    show (do
      let us ← getAttrVal (Val.vConfig u0 []) "suffix"
      pyAdd (Val.vStr (ps ++ x)) us : Except PyErr Val) = _
    rw [getAttrVal_config_present u0 "suffix" _ hss2, bind_ok]
    rfl
  have hconfig : ∀ oes : List (String × Val), owfSV oes = true →
      ∃ s, (do
        let up ← getAttrVal (Val.vConfig u0 []) "prefix"
        let s1 ← pyAdd ((lookupE oes "prefix").getD up)
          ((lookupE oes (if m then "missing" else "invalid")).getD (Val.vStr ds))
        let us ← getAttrVal (Val.vConfig u0 []) "suffix"
        pyAdd s1 ((lookupE oes "suffix").getD us) : Except PyErr Val) = .ok (.vStr s) := by
    intro oes howfo
    have hstr : ∀ (n : String), isFourName n = true → ∀ (fb : String),
        ∃ s2, (lookupE oes n).getD (Val.vStr fb) = Val.vStr s2 := by
      intro n hf fb
      cases hpo : lookupE oes n with
      | none => exact ⟨fb, rfl⟩
      | some w2 =>
          obtain ⟨s3, hs3⟩ := owfSV_lookup_four oes howfo n hf w2 hpo
          refine ⟨s3, ?_⟩
          rw [hs3]
          rfl
    obtain ⟨ps, hps⟩ := strAt_spec u0 "prefix" hsp
    obtain ⟨ss2, hss2⟩ := strAt_spec u0 "suffix" hssx
    obtain ⟨p2, hp2⟩ := hstr "prefix" (by decide) ps
    obtain ⟨w2, hw2⟩ := hstr (if m then "missing" else "invalid") (by cases m <;> decide) ds
    obtain ⟨f2, hf2⟩ := hstr "suffix" (by decide) ss2
    refine ⟨p2 ++ w2 ++ f2, ?_⟩
    rw [getAttrVal_config_present u0 "prefix" _ hps, bind_ok, hp2, hw2]
    show (do
      let us ← getAttrVal (Val.vConfig u0 []) "suffix"
      pyAdd (Val.vStr (p2 ++ w2)) ((lookupE oes "suffix").getD us) : Except PyErr Val) =
      Except.ok (Val.vStr (p2 ++ w2 ++ f2))
    rw [getAttrVal_config_present u0 "suffix" _ hss2, bind_ok, hf2]
    rfl
  rw [getErrMsg_eq, hu, bind_ok, hd, bind_ok, getD_some]
  cases name with
  | int n =>
      obtain ⟨s, hs⟩ := hplain ds
      refine ⟨s, ?_⟩
      show (do
        let up ← getAttrVal (Val.vConfig u0 []) "prefix"
        let s1 ← pyAdd up (Val.vStr ds)
        let us ← getAttrVal (Val.vConfig u0 []) "suffix"
        pyAdd s1 us : Except PyErr Val) = Except.ok (Val.vStr s)
      exact hs
  | str a =>
      rw [rawGetK_str]
      cases hr : lookupE em.entries a with
      | none =>
          obtain ⟨s, hs⟩ := hplain ds
          refine ⟨s, ?_⟩
          show (do
            let up ← getAttrVal (Val.vConfig u0 []) "prefix"
            let s1 ← pyAdd up (Val.vStr ds)
            let us ← getAttrVal (Val.vConfig u0 []) "suffix"
            pyAdd s1 us : Except PyErr Val) = Except.ok (Val.vStr s)
          exact hs
      | some w =>
          have hmem := lookupE_mem em.entries a w hr
          rcases hall (a, w) hmem with hua | howfw
          · have ha2 : a = "_" := hua
            subst ha2
            rw [hl] at hr
            injection hr with hw
            obtain ⟨s, hs⟩ := hconfig u0 (owfSV_of_resStr u0 hall0)
            refine ⟨s, ?_⟩
            rw [← hw]
            show (do
              let up ← getAttrVal (Val.vConfig u0 []) "prefix"
              let s1 ← pyAdd ((lookupE u0 "prefix").getD up)
                ((lookupE u0 (if m then "missing" else "invalid")).getD (Val.vStr ds))
              let us ← getAttrVal (Val.vConfig u0 []) "suffix"
              pyAdd s1 ((lookupE u0 "suffix").getD us) : Except PyErr Val) =
              Except.ok (Val.vStr s)
            exact hs
          · cases w with
            | vStr x =>
                obtain ⟨s, hs⟩ := hplain x
                refine ⟨s, ?_⟩
                show (do
                  let up ← getAttrVal (Val.vConfig u0 []) "prefix"
                  let s1 ← pyAdd up (Val.vStr x)
                  let us ← getAttrVal (Val.vConfig u0 []) "suffix"
                  pyAdd s1 us : Except PyErr Val) = Except.ok (Val.vStr s)
                exact hs
            | vConfig oes oas =>
                have howfo : owfSV oes = true := by
                  simp only [owfConv, Bool.and_eq_true] at howfw
                  exact howfw.2
                obtain ⟨s, hs⟩ := hconfig oes howfo
                refine ⟨s, ?_⟩
                show (do
                  let up ← getAttrVal (Val.vConfig u0 []) "prefix"
                  let s1 ← pyAdd ((lookupE oes "prefix").getD up)
                    ((lookupE oes (if m then "missing" else "invalid")).getD (Val.vStr ds))
                  let us ← getAttrVal (Val.vConfig u0 []) "suffix"
                  pyAdd s1 ((lookupE oes "suffix").getD us) : Except PyErr Val) =
                  Except.ok (Val.vStr s)
                exact hs
            | vInt x => simp [owfConv] at howfw
            | vBool x => simp [owfConv] at howfw
            | vNone => simp [owfConv] at howfw
            | vDict x => simp [owfConv] at howfw

/-- The override tree a prepared Config supplies for any field is itself a
well-formed error tree. -/
theorem pwf_override (em : Cfg) (h : pwfB em = true) (name : Key) :
    owfV ((rawGetK em.entries name).getD (.vDict [])) = true := by
  obtain ⟨_, ⟨u, hl, hfu⟩, hall⟩ := pwf_parts em h
  cases name with
  | int n => rfl
  | str a =>
      rw [rawGetK_str]
      cases hr : lookupE em.entries a with
      | none => rfl
      | some w =>
          show owfV w = true
          have hmem := lookupE_mem em.entries a w hr
          rcases hall (a, w) hmem with hua | howfw
          · have ha2 : a = "_" := hua
            subst ha2
            rw [hl] at hr
            injection hr with hw
            rw [← hw]
            exact fourAllB_owfV u hfu
          · exact owfConv_owfV w howfw

/-- A total check evaluates to a boolean without raising, on every value;
joint strong induction over the size of the check for the three mutual
evaluators. -/
theorem check_total (N : Nat) :
    (∀ ch, sizeOf ch < N → TotalC ch → ∀ v, ∃ b, checkFn v ch = .ok b) ∧
    (∀ cs, sizeOf cs < N → TotalL cs → ∀ v, ∃ b, anyCheck v cs = .ok b) ∧
    (∀ cs, sizeOf cs < N → TotalL cs → ∀ v, ∃ b, allCheck v cs = .ok b) := by
  induction N with
  | zero =>
      refine ⟨?_, ?_, ?_⟩ <;> intro x hx <;> exact absurd hx (Nat.not_lt_zero _)
  | succ N ih =>
      obtain ⟨ihc, iha, ihl⟩ := ih
      refine ⟨?_, ?_, ?_⟩
      · intro ch hs ht v
        cases ch with
        | ckList cs =>
            have hs2 : sizeOf cs < N := by
              simp only [Check.ckList.sizeOf_spec] at hs
              omega
            obtain ⟨b, hb⟩ := iha cs hs2 ht v
            exact ⟨b, hb⟩
        | ckSet cs =>
            have hs2 : sizeOf cs < N := by
              simp only [Check.ckSet.sizeOf_spec] at hs
              omega
            obtain ⟨b, hb⟩ := ihl cs hs2 ht v
            exact ⟨b, hb⟩
        | ckType ty => exact ⟨isInst v ty, rfl⟩
        | ckFun f => exact ht v
        | ckTuple f a k => exact ht v
        | ckVal w => exact ⟨pyEq v w, rfl⟩
      · intro cs hs ht v
        cases cs with
        | nil => exact ⟨false, rfl⟩
        | cons c rest =>
            have ht2 : TotalC c ∧ TotalL rest := ht
            have hs2 : sizeOf c < N ∧ sizeOf rest < N := by
              simp only [List.cons.sizeOf_spec] at hs
              omega
            obtain ⟨b, hb⟩ := ihc c hs2.1 ht2.1 v
            cases b with
            | true =>
                refine ⟨true, ?_⟩
                show (do
                  let b2 ← checkFn v c
                  if b2 then pure true else anyCheck v rest : Except PyErr Bool) = .ok true
                rw [hb, bind_ok]
                rfl
            | false =>
                obtain ⟨b2, hb2⟩ := iha rest hs2.2 ht2.2 v
                refine ⟨b2, ?_⟩
                show (do
                  let b3 ← checkFn v c
                  if b3 then pure true else anyCheck v rest : Except PyErr Bool) = .ok b2
                rw [hb, bind_ok]
                exact hb2
      · intro cs hs ht v
        cases cs with
        | nil => exact ⟨true, rfl⟩
        | cons c rest =>
            have ht2 : TotalC c ∧ TotalL rest := ht
            have hs2 : sizeOf c < N ∧ sizeOf rest < N := by
              simp only [List.cons.sizeOf_spec] at hs
              omega
            obtain ⟨b, hb⟩ := ihc c hs2.1 ht2.1 v
            cases b with
            | false =>
                refine ⟨false, ?_⟩
                show (do
                  let b2 ← checkFn v c
                  if b2 then allCheck v rest else pure false : Except PyErr Bool) = .ok false
                rw [hb, bind_ok]
                rfl
            | true =>
                obtain ⟨b2, hb2⟩ := ihl rest hs2.2 ht2.2 v
                refine ⟨b2, ?_⟩
                show (do
                  let b3 ← checkFn v c
                  if b3 then allCheck v rest else pure false : Except PyErr Bool) = .ok b2
                rw [hb, bind_ok]
                exact hb2

theorem checkFn_total (ch : Check) (ht : TotalC ch) (v : Val) :
    ∃ b, checkFn v ch = .ok b :=
  (check_total (sizeOf ch + 1)).1 ch (by omega) ht v

/-- The template walk on a prepared error-messages Config with total checks:
it never raises, its boolean is the accumulated flag conjoined with the
declarative verdict, and it reports exactly one message per failing field of
the declarative count. -/
theorem follows_ok (N : Nat) :
    (∀ (t : Template), sizeOf t < N →
      ∀ (c em : Cfg) (path : String) (fi : FormatInfo) (res : Bool),
        pwfB em = true → TotalT t →
        ∃ rs, followsAux c t em path fi res = .ok (res && specOk c t, rs) ∧
          rs.length = countFail c t) ∧
    (∀ (node : TNode), sizeOf node < N →
      ∀ (attrName : Key) (attr : Val) (em : Cfg) (path : String) (fi1 : FormatInfo)
        (res : Bool),
        pwfB em = true → TotalN node →
        ∃ fi2 rsn, followsNode attrName attr node em path fi1 res =
            .ok (res && specOkNode attr node, fi2, rsn) ∧
          rsn.length = countFailNode attr node) := by
  induction N with
  | zero =>
      refine ⟨?_, ?_⟩ <;> intro x hx <;> exact absurd hx (Nat.not_lt_zero _)
  | succ N ih =>
      obtain ⟨ihT, ihN⟩ := ih
      refine ⟨?_, ?_⟩
      · intro t ht c em path fi res hpwf htot
        cases t with
        | nil =>
            refine ⟨[], ?_, rfl⟩
            show Except.ok (res, ([] : List Report)) = Except.ok (res && specOk c [], [])
            simp only [specOk, Bool.and_true]
        | cons p rest =>
            obtain ⟨attrName, node⟩ := p
            have hsn : sizeOf node < N ∧ sizeOf rest < N := by
              simp only [List.cons.sizeOf_spec, Prod.mk.sizeOf_spec] at ht
              omega
            have htot2 : TotalN node ∧ TotalT rest := htot
            cases hget : getAttr c (identifier attrName) with
            | error e =>
                obtain ⟨ms, hmsg⟩ := pwf_errmsg em hpwf attrName true
                obtain ⟨rs, hbr, hlen⟩ := ihT rest hsn.2 c em path
                  { fi with name := some attrName } false hpwf htot2.2
                refine ⟨(Val.vStr ms, { fi with name := some attrName }) :: rs, ?_, ?_⟩
                · simp only [followsAux]
                  rw [hget]
                  show (do
                    let msg ← getErrMsg attrName em true
                    let br ← followsAux c rest em path { fi with name := some attrName } false
                    Except.ok (br.1, (msg, { fi with name := some attrName }) :: br.2) :
                      Except PyErr (Bool × List Report)) = _
                  rw [hmsg, bind_ok, hbr, bind_ok]
                  simp only [specOk]
                  rw [hget]
                  simp
                · simp only [List.length_cons, countFail]
                  rw [hget]
                  show rs.length + 1 = 1 + countFail c rest
                  omega
            | ok attr =>
                obtain ⟨fi2, rsn, hstep, hlenn⟩ := ihN node hsn.1 attrName attr em path
                  { fi with name := some attrName } res hpwf htot2.1
                obtain ⟨rs, hbr, hlen⟩ := ihT rest hsn.2 c em path fi2
                  (res && specOkNode attr node) hpwf htot2.2
                refine ⟨rsn ++ rs, ?_, ?_⟩
                · simp only [followsAux]
                  rw [hget]
                  show (do
                    let step ← followsNode attrName attr node em path
                      { fi with name := some attrName } res
                    let br ← followsAux c rest em path step.2.1 step.1
                    Except.ok (br.1, step.2.2 ++ br.2) :
                      Except PyErr (Bool × List Report)) = _
                  rw [hstep, bind_ok]
                  show (do
                    let br ← followsAux c rest em path fi2 (res && specOkNode attr node)
                    Except.ok (br.1, rsn ++ br.2) :
                      Except PyErr (Bool × List Report)) = _
                  rw [hbr, bind_ok]
                  simp only [specOk]
                  rw [hget]
                  simp [Bool.and_assoc]
                · simp only [List.length_append, countFail]
                  rw [hget]
                  show rsn.length + rs.length = countFailNode attr node + countFail c rest
                  omega
      · intro node hs attrName attr em path fi1 res hpwf htot
        cases node with
        | chk ch =>
            have htc : TotalC ch := htot
            obtain ⟨b, hb⟩ := checkFn_total ch htc attr
            cases b with
            | true =>
                refine ⟨fi1, [], ?_, ?_⟩
                · simp only [followsNode]
                  rw [hb, bind_ok]
                  simp only [specOkNode, checkPasses]
                  rw [hb]
                  simp
                · simp [countFailNode, checkPasses, hb]
            | false =>
                obtain ⟨ms, hmsg⟩ := pwf_errmsg em hpwf attrName false
                refine ⟨{ fi1 with missing := false, value := some attr },
                  [(Val.vStr ms, { fi1 with missing := false, value := some attr })], ?_, ?_⟩
                · simp only [followsNode]
                  rw [hb, bind_ok]
                  show (do
                    let msg ← getErrMsg attrName em false
                    Except.ok (false, { fi1 with missing := false, value := some attr },
                      [(msg, { fi1 with missing := false, value := some attr })]) :
                      Except PyErr (Bool × FormatInfo × List Report)) = _
                  rw [hmsg, bind_ok]
                  simp only [specOkNode, checkPasses]
                  rw [hb]
                  simp
                · simp [countFailNode, checkPasses, hb]
        | sub st =>
            have htt : TotalT st := htot
            have hst : sizeOf st < N := by
              simp only [TNode.sub.sizeOf_spec] at hs
              omega
            cases attr with
            | vConfig aes aas =>
                obtain ⟨u0, hu, hfu⟩ := pwf_getu em hpwf
                have hov := pwf_override em hpwf attrName
                obtain ⟨em2, hprep, hpwf2⟩ := prep_child _ u0 hov hfu
                obtain ⟨rs2, hsub, hlen2⟩ := ihT st hst ⟨aes, aas⟩ em2
                  (newPath path attrName) (initFI (newPath path attrName)) true hpwf2 htt
                refine ⟨fi1, rs2, ?_, ?_⟩
                · simp only [followsNode]
                  rw [hu, bind_ok, hprep, bind_ok, hsub, bind_ok]
                  show Except.ok (res && (true && specOk ⟨aes, aas⟩ st), fi1, rs2) =
                    Except.ok (res && specOkNode (Val.vConfig aes aas) (.sub st), fi1, rs2)
                  rw [Bool.true_and]
                  rfl
                · show rs2.length = countFail ⟨aes, aas⟩ st
                  exact hlen2
            | vInt x =>
                obtain ⟨ms, hmsg⟩ := pwf_errmsg em hpwf attrName true
                refine ⟨fi1, [(Val.vStr ms, fi1)], ?_, ?_⟩
                · simp only [followsNode]
                  rw [hmsg, bind_ok]
                  show Except.ok (false, fi1, [(Val.vStr ms, fi1)]) =
                    Except.ok (res && false, fi1, [(Val.vStr ms, fi1)])
                  rw [Bool.and_false]
                · rfl
            | vStr x =>
                obtain ⟨ms, hmsg⟩ := pwf_errmsg em hpwf attrName true
                refine ⟨fi1, [(Val.vStr ms, fi1)], ?_, ?_⟩
                · simp only [followsNode]
                  rw [hmsg, bind_ok]
                  show Except.ok (false, fi1, [(Val.vStr ms, fi1)]) =
                    Except.ok (res && false, fi1, [(Val.vStr ms, fi1)])
                  rw [Bool.and_false]
                · rfl
            | vBool x =>
                obtain ⟨ms, hmsg⟩ := pwf_errmsg em hpwf attrName true
                refine ⟨fi1, [(Val.vStr ms, fi1)], ?_, ?_⟩
                · simp only [followsNode]
                  rw [hmsg, bind_ok]
                  show Except.ok (false, fi1, [(Val.vStr ms, fi1)]) =
                    Except.ok (res && false, fi1, [(Val.vStr ms, fi1)])
                  rw [Bool.and_false]
                · rfl
            | vNone =>
                obtain ⟨ms, hmsg⟩ := pwf_errmsg em hpwf attrName true
                refine ⟨fi1, [(Val.vStr ms, fi1)], ?_, ?_⟩
                · simp only [followsNode]
                  rw [hmsg, bind_ok]
                  show Except.ok (false, fi1, [(Val.vStr ms, fi1)]) =
                    Except.ok (res && false, fi1, [(Val.vStr ms, fi1)])
                  rw [Bool.and_false]
                · rfl
            | vDict x =>
                obtain ⟨ms, hmsg⟩ := pwf_errmsg em hpwf attrName true
                refine ⟨fi1, [(Val.vStr ms, fi1)], ?_, ?_⟩
                · simp only [followsNode]
                  rw [hmsg, bind_ok]
                  show Except.ok (false, fi1, [(Val.vStr ms, fi1)]) =
                    Except.ok (res && false, fi1, [(Val.vStr ms, fi1)])
                  rw [Bool.and_false]
                · rfl

/-- C6, amended: for every store, template with total check callables, and
WELL-FORMED error-messages tree, follows_template returns without raising,
its boolean verdict is true exactly when every field at every depth resolves
and satisfies its check, and it reports one message per failing field; with
an ill-formed error-messages tree the walk can instead raise AttributeError,
against the claim. -/
theorem c6_validate_total (c : Cfg) (t : Template) (em : Val)
    (htot : TotalT t) (howf : owfV em = true) :
    ∃ b rs, followsTemplate c t em = .ok (b, rs) ∧
      (b = true ↔ specOk c t = true) ∧ rs.length = countFail c t := by
  obtain ⟨pem, hprep, hpwf⟩ := prep_top em howf
  obtain ⟨rs, haux, hlen⟩ := (follows_ok (sizeOf t + 1)).1 t (by omega) c pem ""
    (initFI "") true hpwf htot
  refine ⟨true && specOk c t, rs, ?_, ?_, hlen⟩
  · show (do
      let pem2 ← prepEM em (.vDict [])
      followsTpl c t pem2 "" : Except PyErr (Bool × List Report)) = _
    rw [hprep, bind_ok]
    exact haux
  · rw [Bool.true_and]

/-- Witness for C6 at concrete inputs: an int-typed field present as 3
validates against the default error messages. -/
theorem c6_validate_total_witness :
    TotalT [(Key.str "x", TNode.chk (Check.ckType PyType.tyInt))] ∧
    owfV (Val.vDict []) = true ∧
    ∃ b rs, followsTemplate ⟨[("x", Val.vInt 3)], []⟩
        [(Key.str "x", TNode.chk (Check.ckType PyType.tyInt))] (.vDict []) = .ok (b, rs) ∧
      (b = true ↔ specOk ⟨[("x", Val.vInt 3)], []⟩
          [(Key.str "x", TNode.chk (Check.ckType PyType.tyInt))] = true) ∧
      rs.length = countFail ⟨[("x", Val.vInt 3)], []⟩
          [(Key.str "x", TNode.chk (Check.ckType PyType.tyInt))] :=
  ⟨⟨trivial, trivial⟩, rfl,
    c6_validate_total ⟨[("x", Val.vInt 3)], []⟩
      [(Key.str "x", TNode.chk (Check.ckType PyType.tyInt))] (.vDict [])
      ⟨trivial, trivial⟩ rfl⟩

/-- Counterexample for C6 as stated: an error-messages tree whose reserved
key holds the integer 5 makes follows_template raise AttributeError even on
an empty template, so the validator does not shield its caller from
attribute errors for every error-messages tree. -/
theorem c6_illformed_cex :
    followsTemplate ⟨[], []⟩ [] (.vDict [(.str "_", .vInt 5)]) =
      .error PyErr.attributeError ∧
    ∀ r : Bool × List Report,
      followsTemplate ⟨[], []⟩ [] (.vDict [(.str "_", .vInt 5)]) ≠ .ok r := by
  have he : followsTemplate ⟨[], []⟩ [] (.vDict [(.str "_", .vInt 5)]) =
      .error PyErr.attributeError := rfl
  refine ⟨he, ?_⟩
  intro r h
  rw [he] at h
  exact Except.noConfusion h

end PyConf
